import Mathlib

/-!
# Verification of the dict-cc entry grammar engine

Shallow embedding of the entry parser, renderer and matcher of the
`dict-cc-lookup` repository (files `src/entry/part.rs`, `src/entry/term.rs`,
`src/entry/placeholder.rs`, `src/entry/annotation.rs`, `src/entry/gender.rs`,
`src/util.rs`).  Strings are modelled as `List Char`; byte lengths are
recovered through `Char.utf8Size` where the Rust code measures bytes.
-/

set_option maxHeartbeats 1000000

namespace DictCC

/-- Grammatical case, `src/entry/placeholder.rs`. -/
inductive Case
  | nominative
  | accusative
  | dative
  | genitive
deriving DecidableEq, Repr

/-- Grammatical gender, `src/entry/gender.rs`. -/
inductive Gender
  | masculine
  | feminine
  | neutral
deriving DecidableEq, Repr

/-- Kind of a bracketed piece of information, `src/entry/annotation.rs`
(`AnnotationKind`). -/
inductive AnnKind
  | explanation
  | alternative
  | number
deriving DecidableEq, Repr

/-- Grammatical slot, `src/entry/placeholder.rs` (`Placeholder`). -/
inductive Ph
  | reflexive (c : Option Case)
  | thing (c : Option Case)
  | person (c : Case)
deriving DecidableEq, Repr

/-- One semantic part of an entry, `src/entry/part.rs` (`Part`). The
`Annotation` struct's two fields are inlined as two arguments of `ann`. -/
inductive Part
  | keyword (w : List Char)
  | extra (ps : List Part)
  | variantSeparator
  | placeholder (p : Ph)
  | ann (kind : AnnKind) (value : List Char)
  | gender (g : Gender)
deriving Repr

/-- Number of bytes of the UTF-8 encoding, modelling Rust's `str::len`. -/
def byteLen : List Char → Nat
  | [] => 0
  | c :: cs => c.utf8Size + byteLen cs

/-- Lowercase mapping of one character, modelling `char::to_lowercase`.
The Rust iterator draws on the full Unicode table; the entries relevant to
this development (the ASCII range) are reproduced here, every other
character mapping to itself. -/
def lowerChar (c : Char) : List Char :=
  if 'A' ≤ c ∧ c ≤ 'Z' then [Char.ofNat (c.toNat + 32)] else [c]

/-- `case_fold_eq` from `src/util.rs`: zips the two character sequences
(truncating at the shorter one) and compares the per-character lowercase
expansions. -/
def caseFoldEq (a b : List Char) : Bool :=
  (a.zip b).all fun p => lowerChar p.1 = lowerChar p.2

/-- The keyword text of a part, when it is a keyword (the closure of the
iterator inside `Term::match_exact`). -/
def keywordOf : Part → Option (List Char)
  | .keyword w => some w
  | _ => none

/-- A parsed term, `src/entry/term.rs` (`Term`). -/
structure Term where
  parts : List Part

/-- `Term::match_exact` from `src/entry/term.rs`: take the keywords of the
part sequence; demand exactly one; compare byte lengths, then case-fold. -/
def Term.matchExact (t : Term) (input : List Char) : Bool :=
  match t.parts.filterMap keywordOf with
  | [k] => byteLen input == byteLen k && caseFoldEq input k
  | _ => false

/-- First letter of the capitalized case name, `Case::repr_letter`. -/
def Case.reprLetter : Case → Char
  | .nominative => 'N'
  | .accusative => 'A'
  | .dative => 'D'
  | .genitive => 'G'

/-- `Display for Placeholder`, `src/entry/placeholder.rs`. -/
def Ph.render : Ph → List Char
  | .thing none => "etw".data
  | .thing (some c) => "etw".data ++ '(' :: c.reprLetter :: [')']
  | .reflexive none => "sich".data
  | .reflexive (some c) => "sich".data ++ '(' :: c.reprLetter :: [')']
  | .person .nominative => "jd".data
  | .person .accusative => "jdn".data
  | .person .dative => "jdm".data
  | .person .genitive => "jds".data

/-- `Display for Gender`, `src/entry/gender.rs`: the definite article. -/
def Gender.render : Gender → List Char
  | .masculine => "der".data
  | .feminine => "die".data
  | .neutral => "das".data

/-- Does the rendered output so far end in a slash
(`out.ends_with("/")` in `format_parts`)? -/
def endsSlash (out : List Char) : Bool :=
  out.getLast? == some '/'

mutual

/-- The rendering of one part as used by `format_parts`
(`src/entry/term.rs`): the `filter_map` closure.  `none` for Explanation
and Alternative annotations, which the canonical display omits. -/
def renderOpt : Part → Option (List Char)
  | .keyword k => some k
  | .placeholder ph => some ph.render
  | .variantSeparator => some ['/']
  | .gender g => some g.render
  | .ann .number v => some ('[' :: v ++ [']'])
  | .ann .explanation _ => none
  | .ann .alternative _ => none
  | .extra ps => some ('(' :: renderList ps ++ [')'])

/-- The accumulation loop of `format_parts`: append each rendered part,
preceded by a space unless the output is empty, ends in a slash, or the
part renders as a slash. -/
def renderAux : List Part → List Char → List Char
  | [], out => out
  | p :: ps, out =>
    match renderOpt p with
    | none => renderAux ps out
    | some w =>
      renderAux ps
        (out ++ (if out ≠ [] ∧ ¬ endsSlash out ∧ w ≠ ['/'] then [' '] else []) ++ w)

/-- `format_parts` from `src/entry/term.rs`. -/
def renderList (ps : List Part) : List Char :=
  renderAux ps []

end

/-- The sorting comparator of `Display for Term` (`src/entry/term.rs`):
a gender part compares `Less` than anything, anything compares `Greater`
than a gender part, all else is `Equal`. -/
def displayCmp (a b : Part) : Ordering :=
  match a with
  | .gender _ => .lt
  | _ => match b with
    | .gender _ => .gt
    | _ => .eq

/-- Stable insertion of one element modelling `slice::sort_by`: `x` is
placed before the first element `y` that does not compare strictly below
`x`. -/
def displayInsert (x : Part) : List Part → List Part
  | [] => [x]
  | y :: ys => if displayCmp y x == .lt then y :: displayInsert x ys else x :: y :: ys

/-- Stable insertion sort modelling `parts.sort_by(...)` in
`Display for Term`.  Rust's stable slice sort on small slices is an
insertion sort; with this comparator it moves gender parts to the front
and keeps everything else in input order. -/
def displaySort : List Part → List Part
  | [] => []
  | x :: xs => displayInsert x (displaySort xs)

/-- Canonical display of a part list: `Display for Term`
(`src/entry/term.rs`): sort gender parts to the front, then render. -/
def display (ps : List Part) : List Char :=
  renderList (displaySort ps)

/-- Canonical display of a term. -/
def Term.display (t : Term) : List Char :=
  DictCC.display t.parts

/-! ## The parser (`src/entry/part.rs`)

The Rust parser is a state machine whose states (`Base`, `Placeholder`,
`Annotation`, `Curly`, `Extra`, `KeywordParens`) each own the remaining
input.  All states except `Base` and `Extra` return to `Base` after a
bounded amount of work, so they are embedded as total functions invoked
from one step function on the `Base` state; the `Extra` state's fresh
recursive parser becomes the `extraEnter` outcome handled by the driver
loop `runF`. -/

/-- `is_special_char` from `src/entry/part.rs`. -/
def isSpecial (c : Char) : Bool :=
  c = '[' ∨ c = '{' ∨ c = '<' ∨ c = '(' ∨ c = '/' ∨ c = ' '

/-- `is_special_char_with_end_paren` from `src/entry/part.rs`. -/
def isSpecialWEP (c : Char) : Bool :=
  c = '[' ∨ c = '{' ∨ c = '<' ∨ c = '(' ∨ c = ')' ∨ c = '/' ∨ c = ' '

/-- Split a string at the first character satisfying `p`, returning the
clean prefix, that character and the remainder.  Models
`str::find(predicate)` together with the subsequent slicing. -/
def splitAtSpecial (p : Char → Bool) : List Char → Option (List Char × Char × List Char)
  | [] => none
  | c :: cs =>
    if p c then some ([], c, cs)
    else
      match splitAtSpecial p cs with
      | some (pre, ch, post) => some (c :: pre, ch, post)
      | none => none

/-- The `Base` state: remaining input, the `stop_at_parens` flag of the
(possibly nested) parser, and the `done` flag set after a terminating
close-parenthesis. -/
structure Base where
  s : List Char
  stop : Bool
  done : Bool
deriving Repr

/-- Typed parse errors (the `anyhow!` messages of `src/entry/part.rs`). -/
inductive PErr
  | unclosedParen
  | unexpectedSpecial (c : Char)
  | unfinishedPh
  | unfinishedCurly
  | kpUnmatched
  | kpSpecialBeforeClose
deriving DecidableEq, Repr

/-- Outcome of one state-machine step, folding the per-state `step`
functions of `src/entry/part.rs` into one type: continue in a `Base`
state emitting some parts, enter a nested parse for an `Extra` group,
finish (with the final optional part and the leftover input), abort with
a typed error, or hit a Rust panic. -/
inductive StepR
  | cont (b : Base) (emit : List Part)
  | extraEnter (rest : List Char) (stp : Bool)
  | finish (emit : List Part) (left : List Char)
  | fail (e : PErr)
  | panick
deriving Repr

/-- `Case::try_from`-style decoding of the four-byte case codes used by
`Placeholder::step` (`"Nom." | "Akk." | "Gen." | "Dat."`). -/
def caseOfCode (l : List Char) : Option Case :=
  if l = "Nom.".data then some .nominative
  else if l = "Akk.".data then some .accusative
  else if l = "Gen.".data then some .genitive
  else if l = "Dat.".data then some .dative
  else none

/-- The `get_placeholder` closure of `Placeholder::step`: the placeholder
kind determined by the word that entered the lookahead. -/
def phKind (word : List Char) (c : Option Case) : Ph :=
  if word = "etw.".data then .thing c else .reflexive c

/-- The part of `Placeholder::step` after the `[` was located (and
consumed): strip an optional `+`, demand five remaining bytes
(`s.len() < 5` counts bytes), decode the four-byte case code
(`s.get(..4)`, equal to a code exactly when the first four characters
are that ASCII code), then check the closing `]`.  The raw slice
`&s[..1]` panics when the byte after the recognized case code starts a
multi-byte character.  On any soft deviation the `reset_state` closure
resumes from the position captured when the lookahead began (`b` is
unchanged), without consuming the deviating text. -/
def phAfter (b : Base) (word : List Char) (r1 : List Char) : StepR :=
  if r1.isEmpty then .fail .unfinishedPh
  else
    if byteLen (if r1.head? == some '+' then r1.tail else r1) < 5 then
      .cont b [.placeholder (phKind word none)]
    else
      match caseOfCode ((if r1.head? == some '+' then r1.tail else r1).take 4) with
      | none => .cont b [.placeholder (phKind word none)]
      | some cs =>
        match (if r1.head? == some '+' then r1.tail else r1).drop 4 with
        | [] => .panick
        | c5 :: r4 =>
          if c5.utf8Size ≠ 1 then .panick
          else if c5 = ']' then
            .cont { b with s := r4 } [.placeholder (phKind word (some cs))]
          else .cont b [.placeholder (phKind word none)]

/-- `Placeholder::step` from `src/entry/part.rs`, entered after the word
`"etw."` or `"sich"` was consumed.  `s.find('[')` returns a byte index
below 2 exactly when the input starts with `[`, or with one single-byte
character followed by `[`. -/
def phStep (b : Base) (word : List Char) : StepR :=
  if b.s.isEmpty then
    .finish [.placeholder (phKind word none)] []
  else
    match b.s with
    | [] => .cont b [.placeholder (phKind word none)]
    | c1 :: rest1 =>
      if c1 = '[' then phAfter b word rest1
      else
        match rest1 with
        | [] => .cont b [.placeholder (phKind word none)]
        | c2 :: rest2 =>
          if c2 = '[' ∧ c1.utf8Size = 1 then phAfter b word rest2
          else .cont b [.placeholder (phKind word none)]

/-- `Base::handle_word` from `src/entry/part.rs`. -/
def handleWord (b : Base) (word : List Char) : StepR :=
  if word = "jd.".data then .cont b [.placeholder (.person .nominative)]
  else if word = "jdn.".data then .cont b [.placeholder (.person .accusative)]
  else if word = "jds.".data then .cont b [.placeholder (.person .dative)]
  else if word = "jdm.".data then .cont b [.placeholder (.person .genitive)]
  else if word = "etw.".data ∨ word = "sich".data then phStep b word
  else .cont b [.keyword word]

/-- Result of the scanning loop inside `Annotation::step`: position of the
matching closer, or no closer together with the recorded special-character
position. -/
inductive AnnRes
  | closeAt (i : Nat)
  | noClose (last : Option Nat)
deriving Repr

/-- The `char_indices` loop of `Annotation::step`: track same-kind nesting
until the matching closer; otherwise record the position of a special
character (the Rust variable is overwritten on every hit, so it holds the
last such position). -/
def annScan (startC endC : Char) (sp : Char → Bool) :
    List Char → Nat → Nat → Option Nat → AnnRes
  | [], _, _, last => .noClose last
  | c :: cs, i, nest, last =>
    if c = endC then
      if nest = 1 then .closeAt i else annScan startC endC sp cs (i + 1) (nest - 1) last
    else if c = startC then annScan startC endC sp cs (i + 1) (nest + 1) last
    else if sp c then annScan startC endC sp cs (i + 1) nest (some i)
    else annScan startC endC sp cs (i + 1) nest last

/-- The body of `Annotation::step` for bracket pair `sc`/`ec` emitting an
annotation of kind `kind`. -/
def annGo (kind : AnnKind) (sc ec : Char) (b : Base) : StepR :=
  match annScan sc ec (fun c => if b.stop then isSpecialWEP c else isSpecial c) b.s 0 1 none with
  | .closeAt e => .cont { b with s := b.s.drop (e + 1) } [.ann kind (b.s.take e)]
  | .noClose (some i) => .cont { b with s := b.s.drop i } [.keyword (sc :: b.s.take i)]
  | .noClose none => .finish [.keyword (sc :: b.s)] []

/-- `Annotation::step` from `src/entry/part.rs`.  The `Number` kind is the
Rust `unreachable!()` (a panic); it is never produced by `Base::step`. -/
def annStep (kind : AnnKind) (b : Base) : StepR :=
  match kind with
  | .number => .panick
  | .explanation => annGo .explanation '[' ']' b
  | .alternative => annGo .alternative '<' '>' b

/-- The classification of the text enclosed in a curly clause performed
by `Curly::step`: the three genders, the four number markers, anything
else silently dropped. -/
def curlyEmit (content : List Char) : List Part :=
  if content = "m".data then [.gender .masculine]
  else if content = "f".data then [.gender .feminine]
  else if content = "n".data then [.gender .neutral]
  else if content = "pl".data ∨ content = "pl.".data then
    [.ann .number "nur plural".data]
  else if content = "sg".data ∨ content = "sg.".data then
    [.ann .number "singular".data]
  else []

/-- `Curly::step` from `src/entry/part.rs`: find the closing brace (a hard
error when absent) and classify the enclosed text. -/
def curlyStep (b : Base) : StepR :=
  match splitAtSpecial (· = '}') b.s with
  | none => .fail .unfinishedCurly
  | some (content, _, rest) => .cont { b with s := rest } (curlyEmit content)

/-- The closed phase of `KeywordParens::step` (`parens_closed = true`):
scan for the next special character; the text before it is the keyword.
With `parens_closed` the search predicate excludes `)`, so the Rust loop
cannot re-enter its `")"` arm, which makes this phase non-recursive. -/
def kpAfterClose (stop done : Bool) (pre suf : List Char) : StepR :=
  match splitAtSpecial isSpecial suf with
  | none => .fail .kpUnmatched
  | some (skip, c, rest) =>
    let consumed := pre ++ skip
    .cont ⟨c :: rest, stop, done⟩
      (if consumed.isEmpty then [] else [.keyword consumed])

/-- The opening phase of `KeywordParens::step` (`parens_closed = false`),
entered from `Base::step` on a parenthesis in word position; `pre` is the
already-scanned text through the opening parenthesis.  The search
predicate is `)`-only at the top level and the full special set inside a
nested parse, exactly as in the source. -/
def kpStart (stop done : Bool) (pre suf : List Char) : StepR :=
  match splitAtSpecial (if stop then isSpecialWEP else (· = ')')) suf with
  | none => .fail .kpUnmatched
  | some (skip, c, rest) =>
    if c = ')' then
      if rest.isEmpty then .finish [.keyword (pre ++ skip ++ [')'])] []
      else kpAfterClose stop done (pre ++ skip ++ [')']) rest
    else .fail .kpSpecialBeforeClose

/-- `Base::step` from `src/entry/part.rs`, with the immediate effects of
the non-`Base` states inlined.  Note two faithful quirks: on `[`, `<` and
`{` any pending consumed text is dropped (the source passes `None` as the
emitted part), and the parenthesis-validity test looks at the character
before the parenthesis. -/
def stepBase (b : Base) : StepR :=
  if b.s.isEmpty ∨ b.done then
    if b.stop ∧ ¬ b.done then .fail .unclosedParen else .finish [] b.s
  else
    match splitAtSpecial (if b.stop then isSpecialWEP else isSpecial) b.s with
    | none => handleWord { b with s := [] } b.s
    | some (pre, c, post) =>
      if c = ' ' then
        if pre.isEmpty then .cont { b with s := post } []
        else handleWord { b with s := post } pre
      else if c = '/' then
        if pre.isEmpty then .cont { b with s := post } [.variantSeparator]
        else handleWord { b with s := c :: post } pre
      else if c = '[' then annStep .explanation { b with s := post }
      else if c = '<' then annStep .alternative { b with s := post }
      else if c = '{' then curlyStep { b with s := post }
      else if c = '(' then
        if pre.isEmpty ∨ pre.getLast? = some ' ' then .extraEnter post b.stop
        else kpStart b.stop b.done (pre ++ ['(']) post
      else if c = ')' ∧ b.stop then
        if pre.isEmpty then .finish [] post
        else handleWord { b with s := post, done := true } pre
      else .fail (.unexpectedSpecial c)

/-- Outcome of a whole parse: the collected parts with the leftover input,
a typed error, a Rust panic, or fuel exhaustion of the driver (shown below
never to occur with fuel exceeding the input length). -/
inductive POut
  | ok (parts : List Part) (left : List Char)
  | err (e : PErr)
  | panicked
  | fuelOut
deriving Repr

/-- Prefix already-collected parts onto a successful outcome. -/
def POut.prepend (r : POut) (emit : List Part) : POut :=
  match r with
  | .ok ps l => .ok (emit ++ ps) l
  | r => r

/-- Length of the leftover input of a successful outcome. -/
def POut.leftLen : POut → Nat
  | .ok _ l => l.length
  | _ => 0

/-- The driving loop of `Parser::parse` from `src/entry/part.rs`, with a
fuel parameter for structural termination.  The `extraEnter` outcome runs
the fresh nested parser (`Parser::make(s, true)`) and, on success, wraps
its parts in an `extra` part and resumes a `Base` state on its leftover
with the saved `stop_at_parens` flag and `done := false`, exactly as
`Extra::step` does. -/
def runF : Nat → Base → POut
  | 0, _ => .fuelOut
  | n + 1, b =>
    match stepBase b with
    | .fail e => .err e
    | .panick => .panicked
    | .finish emit left => .ok emit left
    | .cont b' emit => (runF n b').prepend emit
    | .extraEnter rest stp =>
      match runF n ⟨rest, true, false⟩ with
      | .ok parts leftover => (runF n ⟨leftover, stp, false⟩).prepend [.extra parts]
      | .err e => .err e
      | .panicked => .panicked
      | .fuelOut => .fuelOut

/-- Run the parser from a given `Base` configuration with sufficient
fuel. -/
def parseRun (s : List Char) (stop done : Bool) : POut :=
  runF (s.length + 1) ⟨s, stop, done⟩

/-- `Parser::new(input).parse()`: the whole-string parse. -/
def parse (s : List Char) : POut :=
  parseRun s false false

/-! ## Specification-side definitions

These re-state clauses of the specification in its own words, to be
compared against the definitions translated from the source. -/

/-- Is a part a gender part? -/
def isGenderP : Part → Bool
  | .gender _ => true
  | _ => false

/-- Joining rule as the specification words it: the rendered parts joined
with single spaces. -/
def joinSpaces (ws : List (List Char)) : List Char :=
  List.intercalate [' '] ws

/-- Pairwise joining rule actually implemented by `format_parts`: a
single space between two rendered parts, except after a part whose
rendering ends in a slash or before a part rendering as a slash. -/
def specJoin : List (List Char) → List Char
  | [] => []
  | [w] => w
  | w1 :: w2 :: ws =>
    w1 ++ (if endsSlash w1 ∨ w2 = ['/'] then [] else [' ']) ++ specJoin (w2 :: ws)

/-- The gender-first arrangement produced by the display sort: gender
parts first, the remaining parts in original order. -/
def genderFront (ps : List Part) : List Part :=
  (ps.filter isGenderP).reverse ++ ps.filter fun p => ! isGenderP p

/-- Canonical display as claim C4 words it: gender parts first, each part
rendered by its rule, joined with single spaces. -/
def claimRenderC4 (ps : List Part) : List Char :=
  joinSpaces ((genderFront ps).filterMap renderOpt)

/-- `match_exact` as claim C2 words it: the part sequence consists of
exactly one keyword part and no other parts, and that keyword equals the
candidate under the case fold. -/
def claimMatchC2 (ps : List Part) (input : List Char) : Bool :=
  match ps with
  | [Part.keyword k] => byteLen input == byteLen k && caseFoldEq input k
  | _ => false

/-- Canonical display as amended claim C4 words it: gender parts first,
remaining parts in original order, each rendered by its rule, joined with
single spaces except around a slash. -/
def amendRenderC4 (ps : List Part) : List Char :=
  specJoin ((genderFront ps).filterMap renderOpt)

/-- Curly-clause classification as claim C7 words it. -/
def curlyClassify (w : List Char) : List Part :=
  if w = "m".data then [.gender .masculine]
  else if w = "f".data then [.gender .feminine]
  else if w = "n".data then [.gender .neutral]
  else if w = "pl".data ∨ w = "pl.".data then [.ann .number "nur plural".data]
  else if w = "sg".data ∨ w = "sg.".data then [.ann .number "singular".data]
  else []

/-- Recursively delete every Explanation and Alternative annotation part
(claim C10's "the Term with those Parts removed"). -/
def removeAnns : List Part → List Part
  | [] => []
  | .ann .explanation _ :: ps => removeAnns ps
  | .ann .alternative _ :: ps => removeAnns ps
  | .extra qs :: ps => .extra (removeAnns qs) :: removeAnns ps
  | p :: ps => p :: removeAnns ps

/-- The rendered pieces of a part list (its `filter_map renderOpt`). -/
def rend (ps : List Part) : List (List Char) :=
  ps.filterMap renderOpt

/-- A character with no special meaning to the parser. -/
def plainChar (c : Char) : Bool :=
  ¬ (c = '[' ∨ c = '{' ∨ c = '<' ∨ c = '(' ∨ c = ')' ∨ c = '/' ∨ c = ' ')

/-- The words `Base::handle_word` treats specially. -/
def reservedWords : List (List Char) :=
  ["jd.".data, "jdn.".data, "jds.".data, "jdm.".data, "etw.".data, "sich".data]

mutual

/-- Parts whose canonical rendering provably survives a re-parse: keywords
made of plain characters only and distinct from the reserved words;
person placeholders; case-less thing/reflexive placeholders; the variant
separator; gender parts; Explanation/Alternative annotations (they render
as nothing); and parenthesized groups of such parts.  Number annotations
and case-carrying thing/reflexive placeholders are excluded: the former
re-parse as Explanation annotations, the latter render with a
parenthesis that makes `"(etw(D))"` re-parse to a hard error. -/
def tameP : Part → Bool
  | .keyword w => !w.isEmpty && w.all plainChar && !(reservedWords.contains w)
  | .extra ps => tameL ps
  | .variantSeparator => true
  | .placeholder (.person _) => true
  | .placeholder (.thing none) => true
  | .placeholder (.reflexive none) => true
  | .placeholder _ => false
  | .ann .number _ => false
  | .ann _ _ => true
  | .gender _ => true

/-- All parts of the list are tame. -/
def tameL : List Part → Bool
  | [] => true
  | p :: ps => tameP p && tameL ps

end

/-- A part list with no gender part at the top level. -/
def noGenderL (ps : List Part) : Bool :=
  ps.all fun p => ! isGenderP p

/-- Every rendered piece of the list is nonempty (true of every parsed
term, where keywords are never empty). -/
def allRendNonempty (ps : List Part) : Bool :=
  (ps.filterMap renderOpt).all fun w => ! w.isEmpty

/-- Character restriction of amended claim C9: none of the characters
that open or close a bracketed or parenthesized construct. -/
def charsOkC9 (x : List Char) : Bool :=
  x.all fun c => ! (c = '(' ∨ c = ')' ∨ c = '[' ∨ c = '<' ∨ c = '{')

/-- The accumulation loop of `format_parts` expressed over the list of
already-rendered pieces. -/
def renderFold (out : List Char) : List (List Char) → List Char
  | [] => out
  | w :: ws =>
    renderFold (out ++ (if out ≠ [] ∧ ¬ endsSlash out ∧ w ≠ ['/'] then [' '] else []) ++ w) ws

/-- The separator before the next rendered piece: a single space, unless
the output so far ends in a slash (state `σ = true`) or the next piece is
a slash. -/
def sepC (σ : Bool) (w : List Char) : List Char :=
  if ¬ σ ∧ w ≠ ['/'] then [' '] else []

/-- Tail of the joined rendering starting in state `σ` (`true` when no
space is wanted before the next piece: at the start of the output or
after a slash). -/
def glueFrom (σ : Bool) : List (List Char) → List Char
  | [] => []
  | w :: ws => sepC σ w ++ w ++ glueFrom (endsSlash w) ws

/-- The emission of `Base::handle_word` for a word, `none` when the word
enters the placeholder-lookahead state instead. -/
def wordEmit (w : List Char) : Option (List Part) :=
  if w = "jd.".data then some [.placeholder (.person .nominative)]
  else if w = "jdn.".data then some [.placeholder (.person .accusative)]
  else if w = "jds.".data then some [.placeholder (.person .dative)]
  else if w = "jdm.".data then some [.placeholder (.person .genitive)]
  else if w = "etw.".data ∨ w = "sich".data then none
  else some [.keyword w]

end DictCC

namespace DictCC

/-!  ## Claim theorems: concrete evaluations -/

/-- C1: the source's `Base::handle_word` maps the person tokens to cases.
`jd.` and `jdn.` agree with the claim, but the code sends `jds.` to
Dative and `jdm.` to Genitive — the reverse of the claim (and of the
`Display` implementation in the same crate, shown in the last two
conjuncts, which renders Dative as `jdm` and Genitive as `jds`). -/
theorem c1_person_token_eval :
    parse "jd.".data = .ok [.placeholder (.person .nominative)] [] ∧
    parse "jdn.".data = .ok [.placeholder (.person .accusative)] [] ∧
    parse "jds.".data = .ok [.placeholder (.person .dative)] [] ∧
    parse "jdm.".data = .ok [.placeholder (.person .genitive)] [] ∧
    Ph.render (.person .dative) = "jdm".data ∧
    Ph.render (.person .genitive) = "jds".data :=
  ⟨rfl, rfl, rfl, rfl, rfl, rfl⟩

/-- C5: the parse of `"etw. [Nom.ä]"` reaches the raw byte slice
`&s[..1]` of `Placeholder::step` while the remaining text starts with the
two-byte character `ä`, so the Rust program panics (byte index 1 is not a
character boundary) instead of failing softly or returning an error. -/
theorem c5_panic_eval : parse "etw. [Nom.ä]".data = .panicked := rfl

/-- C8: with no closing bracket, `Annotation::step` degrades using the
position of the LAST special character (the loop overwrites
`first_non_annotation_end` on every hit), so `"[a b c"` becomes the
keyword `"[a b"` — containing an interior space — followed by `"c"`,
not the keyword `"[a"` that consuming up to the FIRST special character
would produce. -/
theorem c8_last_special_eval :
    parse "[a b c".data = .ok [.keyword "[a b".data, .keyword "c".data] [] := rfl

/-- C3, counterexample: for the term parsed from `"{pl}"` the canonical
rendering is `"[nur plural]"`, which re-parses as an Explanation
annotation, which renders as the empty string; so
`render (parse (render t))` differs from `render t`. -/
theorem c3_counterexample :
    parse "{pl}".data = .ok [.ann .number "nur plural".data] [] ∧
    display [.ann .number "nur plural".data] = "[nur plural]".data ∧
    parse "[nur plural]".data = .ok [.ann .explanation "nur plural".data] [] ∧
    display [.ann .explanation "nur plural".data] = [] ∧
    display [.ann .explanation "nur plural".data] ≠
      display [.ann .number "nur plural".data] := by
  refine ⟨rfl, ?_, rfl, ?_, ?_⟩ <;>
    simp [display, displaySort, displayInsert, displayCmp, renderList, renderAux,
      renderOpt, endsSlash]

/-- C4, counterexample: the term parsed from `"a/b"` renders as `"a/b"`:
the variant separator is joined WITHOUT surrounding spaces, while the
claim's joining rule (single spaces between all rendered parts) would
produce `"a / b"`. -/
theorem c4_counterexample :
    parse "a/b".data =
      .ok [.keyword "a".data, .variantSeparator, .keyword "b".data] [] ∧
    display [.keyword "a".data, .variantSeparator, .keyword "b".data] = "a/b".data ∧
    claimRenderC4 [.keyword "a".data, .variantSeparator, .keyword "b".data] =
      "a / b".data ∧
    display [.keyword "a".data, .variantSeparator, .keyword "b".data] ≠
      claimRenderC4 [.keyword "a".data, .variantSeparator, .keyword "b".data] := by
  refine ⟨rfl, ?_, ?_, ?_⟩ <;>
    simp [display, displaySort, displayInsert, displayCmp, renderList, renderAux,
      renderOpt, endsSlash, claimRenderC4, joinSpaces, genderFront, isGenderP,
      List.intercalate, show (Ordering.eq == Ordering.lt) = false from rfl]

/-- C2, counterexample: the term parsed from `"abc {m}"` has a keyword
part AND a gender part, yet `match_exact "abc"` returns true — the
implementation only filters for keywords and ignores every other part,
while the claim demands that the sequence consist of exactly one keyword
part and nothing else. -/
theorem c2_counterexample :
    parse "abc {m}".data =
      .ok [.keyword "abc".data, .gender .masculine] [] ∧
    Term.matchExact ⟨[.keyword "abc".data, .gender .masculine]⟩ "abc".data = true ∧
    claimMatchC2 [.keyword "abc".data, .gender .masculine] "abc".data = false :=
  ⟨rfl, rfl, rfl⟩

/-- C6, counterexample: two deviations from the claimed lookahead shape
that do NOT soft-fail as the claim demands.  When the input ends directly
after the `[`, the parse aborts with the hard `unfinished placeholder
case` error; and when one junk byte precedes the `[` (the code accepts a
`[` at byte index 1), the deviating text IS consumed and the case is
still recognized. -/
theorem c6_counterexample :
    parse "etw. [".data = .err .unfinishedPh ∧
    parse "etw. x[Akk.] y".data =
      .ok [.placeholder (.thing (some .accusative)), .keyword "y".data] [] :=
  ⟨rfl, rfl⟩

/-- C9, counterexample: `x = "a)b"` parses on its own to the single
keyword `"a)b"` (a bare `)` is not special at the top level) and contains
no parenthesis at all, hence nothing triggering the word-internal
heuristic; yet `"(a)b)"` does not parse to `[Extra(parse x)]` — inside
the group the `)` terminates the Extra early. -/
theorem c9_counterexample :
    parse "a)b".data = .ok [.keyword "a)b".data] [] ∧
    parse "(a)b)".data =
      .ok [.extra [.keyword "a".data], .keyword "b)".data] [] ∧
    ([.extra [.keyword "a".data], .keyword "b)".data] : List Part) ≠
      [.extra [.keyword "a)b".data]] := by
  refine ⟨rfl, rfl, ?_⟩
  intro h
  simpa using congrArg List.length h

/-! ## Structure of `splitAtSpecial` -/

theorem splitAtSpecial_some {p : Char → Bool} :
    ∀ {l pre c post}, splitAtSpecial p l = some (pre, c, post) →
      l = pre ++ c :: post ∧ p c = true ∧ ∀ x ∈ pre, p x = false := by
  intro l
  induction l with
  | nil => intro pre c post h; simp [splitAtSpecial] at h
  | cons a as ih =>
    intro pre c post h
    by_cases hp : p a
    · simp [splitAtSpecial, hp] at h
      obtain ⟨h1, h2, h3⟩ := h
      subst h1; subst h2; subst h3
      exact ⟨rfl, hp, by simp⟩
    · simp only [splitAtSpecial, hp, Bool.false_eq_true, if_false] at h
      cases hs : splitAtSpecial p as with
      | none => rw [hs] at h; simp at h
      | some t =>
        obtain ⟨pre', c', post'⟩ := t
        rw [hs] at h
        simp only [Option.some.injEq, Prod.mk.injEq] at h
        obtain ⟨h1, h2, h3⟩ := h
        subst h2; subst h3
        obtain ⟨he, hc, hcl⟩ := ih hs
        subst h1
        refine ⟨by simp [he], hc, ?_⟩
        intro x hx
        rcases List.mem_cons.mp hx with rfl | hx
        · simpa using hp
        · exact hcl x hx

theorem splitAtSpecial_append {p : Char → Bool} :
    ∀ {w : List Char}, (∀ x ∈ w, p x = false) → ∀ {c}, p c = true → ∀ (r : List Char),
      splitAtSpecial p (w ++ c :: r) = some (w, c, r) := by
  intro w
  induction w with
  | nil => intro _ c hc r; simp [splitAtSpecial, hc]
  | cons a as ih =>
    intro hcl c hc r
    have ha : p a = false := hcl a (by simp)
    simp [splitAtSpecial, ha, ih (fun x hx => hcl x (by simp [hx])) hc r]

theorem splitAtSpecial_clean_none {p : Char → Bool} :
    ∀ {w : List Char}, (∀ x ∈ w, p x = false) → splitAtSpecial p w = none := by
  intro w
  induction w with
  | nil => intro _; rfl
  | cons a as ih =>
    intro hcl
    have ha : p a = false := hcl a (by simp)
    simp [splitAtSpecial, ha, ih fun x hx => hcl x (by simp [hx])]

/-! ## Outcome bookkeeping -/

theorem POut.prepend_fuelOut_iff (r : POut) (e : List Part) :
    r.prepend e = .fuelOut ↔ r = .fuelOut := by
  cases r <;> simp [POut.prepend]

theorem POut.leftLen_prepend (r : POut) (e : List Part) :
    (r.prepend e).leftLen = r.leftLen := by
  cases r <;> simp [POut.prepend, POut.leftLen]

/-! ## Shape and length facts about the step functions -/

theorem kpAfterClose_shape (stop done : Bool) (pre suf : List Char) :
    (∃ e, kpAfterClose stop done pre suf = .fail e) ∨
    (∃ s' em, kpAfterClose stop done pre suf = .cont ⟨s', stop, done⟩ em ∧
      s'.length ≤ suf.length) := by
  unfold kpAfterClose
  cases hs : splitAtSpecial isSpecial suf with
  | none => exact .inl ⟨_, rfl⟩
  | some t =>
    obtain ⟨skip, c, rest⟩ := t
    have := (splitAtSpecial_some hs).1
    refine .inr ⟨c :: rest, _, rfl, ?_⟩
    subst this
    simp only [List.length_append, List.length_cons]
    omega

theorem kpStart_shape (stop done : Bool) (pre suf : List Char) :
    (∃ e, kpStart stop done pre suf = .fail e) ∨
    (∃ em, kpStart stop done pre suf = .finish em []) ∨
    (∃ s' em, kpStart stop done pre suf = .cont ⟨s', stop, done⟩ em ∧
      s'.length ≤ suf.length) := by
  unfold kpStart
  cases hs : splitAtSpecial (if stop then isSpecialWEP else (· = ')')) suf with
  | none => exact .inl ⟨_, rfl⟩
  | some t =>
    obtain ⟨skip, c, rest⟩ := t
    have hsuf := (splitAtSpecial_some hs).1
    by_cases hc : c = ')'
    · simp only [hc, if_pos rfl]
      by_cases hr : rest.isEmpty
      · simp only [hr, if_pos rfl]
        exact .inr (.inl ⟨_, rfl⟩)
      · simp only [hr, Bool.false_eq_true, if_false]
        rcases kpAfterClose_shape stop done (pre ++ skip ++ [')']) rest with ⟨e, he⟩ | ⟨s', em, he, hl⟩
        · exact .inl ⟨e, he⟩
        · refine .inr (.inr ⟨s', em, he, ?_⟩)
          subst hsuf
          simp only [List.length_append, List.length_cons] at hl ⊢
          omega
    · simp only [if_neg hc]
      exact .inl ⟨_, rfl⟩

theorem annGo_shape (kind : AnnKind) (sc ec : Char) (b : Base) :
    (∃ em, annGo kind sc ec b = .finish em []) ∨
    (∃ s' em, annGo kind sc ec b = .cont ⟨s', b.stop, b.done⟩ em ∧
      s'.length ≤ b.s.length) := by
  unfold annGo
  cases annScan sc ec (fun c => if b.stop then isSpecialWEP c else isSpecial c) b.s 0 1 none with
  | closeAt e => exact .inr ⟨_, _, rfl, by simp⟩
  | noClose last =>
    cases last with
    | none => exact .inl ⟨_, rfl⟩
    | some i => exact .inr ⟨_, _, rfl, by simp⟩

theorem annStep_shape (kind : AnnKind) (b : Base) :
    (annStep kind b = .panick) ∨
    (∃ em, annStep kind b = .finish em []) ∨
    (∃ s' em, annStep kind b = .cont ⟨s', b.stop, b.done⟩ em ∧
      s'.length ≤ b.s.length) := by
  cases kind with
  | number => exact .inl rfl
  | explanation => exact .inr (annGo_shape .explanation '[' ']' b)
  | alternative => exact .inr (annGo_shape .alternative '<' '>' b)

theorem curlyStep_shape (b : Base) :
    (∃ e, curlyStep b = .fail e) ∨
    (∃ s' em, curlyStep b = .cont ⟨s', b.stop, b.done⟩ em ∧
      s'.length ≤ b.s.length) := by
  unfold curlyStep
  cases hs : splitAtSpecial (· = '}') b.s with
  | none => exact .inl ⟨_, rfl⟩
  | some t =>
    obtain ⟨content, c, rest⟩ := t
    have hsuf := (splitAtSpecial_some hs).1
    have hlen : rest.length ≤ b.s.length := by
      rw [hsuf]
      simp only [List.length_append, List.length_cons]
      omega
    exact .inr ⟨rest, curlyEmit content, rfl, hlen⟩

theorem phAfter_shape (b : Base) (word : List Char) (r1 : List Char)
    (hr : r1.length ≤ b.s.length) :
    (phAfter b word r1 = .fail .unfinishedPh) ∨
    (phAfter b word r1 = .panick) ∨
    (∃ s' em, phAfter b word r1 = .cont ⟨s', b.stop, b.done⟩ em ∧
      s'.length ≤ b.s.length) := by
  have heta : ∀ em, StepR.cont b em = .cont ⟨b.s, b.stop, b.done⟩ em := fun _ => rfl
  have hr2len : (if r1.head? == some '+' then r1.tail else r1).length ≤ r1.length := by
    by_cases hh : r1.head? == some '+' <;> simp [hh, List.length_tail]
  unfold phAfter
  by_cases h1 : r1.isEmpty
  · simp only [h1, if_pos rfl]
    exact .inl (by simp)
  · simp only [h1, Bool.false_eq_true, if_false]
    by_cases h2 : byteLen (if r1.head? == some '+' then r1.tail else r1) < 5
    · simp only [if_pos h2]
      exact .inr (.inr ⟨b.s, _, heta _, le_refl _⟩)
    · simp only [if_neg h2]
      cases hcc : caseOfCode ((if r1.head? == some '+' then r1.tail else r1).take 4) with
      | none => exact .inr (.inr ⟨b.s, _, heta _, le_refl _⟩)
      | some cs =>
        cases hd : (if r1.head? == some '+' then r1.tail else r1).drop 4 with
        | nil => exact .inr (.inl rfl)
        | cons c5 r4 =>
          by_cases h5 : c5.utf8Size ≠ 1
          · simp only [if_pos h5]
            exact .inr (.inl (by simp))
          · simp only [if_neg h5]
            by_cases h6 : c5 = ']'
            · simp only [if_pos h6]
              refine .inr (.inr ⟨r4, _, rfl, ?_⟩)
              have hdl := congrArg List.length hd
              simp only [List.length_drop, List.length_cons] at hdl
              omega
            · simp only [if_neg h6]
              exact .inr (.inr ⟨b.s, _, heta _, le_refl _⟩)

theorem phStep_shape (b : Base) (word : List Char) :
    (∃ em, phStep b word = .finish em []) ∨
    (phStep b word = .fail .unfinishedPh) ∨
    (phStep b word = .panick) ∨
    (∃ s' em, phStep b word = .cont ⟨s', b.stop, b.done⟩ em ∧
      s'.length ≤ b.s.length) := by
  have heta : ∀ em, StepR.cont b em = .cont ⟨b.s, b.stop, b.done⟩ em := fun _ => rfl
  unfold phStep
  by_cases hemp : b.s.isEmpty
  · simp only [hemp, if_pos rfl]
    exact .inl ⟨_, rfl⟩
  · simp only [hemp, Bool.false_eq_true, if_false]
    cases hs : b.s with
    | nil => rw [hs] at hemp; simp at hemp
    | cons c1 rest1 =>
      by_cases hc1 : c1 = '['
      · simp only [if_pos hc1]
        rcases phAfter_shape b word rest1 (by rw [hs]; simp) with h | h | h
        · exact .inr (.inl h)
        · exact .inr (.inr (.inl h))
        · obtain ⟨s', em, he, hl⟩ := h
          refine .inr (.inr (.inr ⟨s', em, he, ?_⟩))
          rw [hs] at hl
          exact hl
      · simp only [if_neg hc1]
        cases rest1 with
        | nil =>
          refine .inr (.inr (.inr ⟨b.s, _, heta _, ?_⟩))
          rw [hs]
        | cons c2 rest2 =>
          by_cases hc2 : c2 = '[' ∧ c1.utf8Size = 1
          · simp only [if_pos hc2]
            rcases phAfter_shape b word rest2 (by rw [hs]; simp; omega) with h | h | h
            · exact .inr (.inl h)
            · exact .inr (.inr (.inl h))
            · obtain ⟨s', em, he, hl⟩ := h
              refine .inr (.inr (.inr ⟨s', em, he, ?_⟩))
              rw [hs] at hl
              exact hl
          · simp only [if_neg hc2]
            refine .inr (.inr (.inr ⟨b.s, _, heta _, ?_⟩))
            rw [hs]

theorem handleWord_shape (b : Base) (w : List Char) :
    (∃ em, handleWord b w = .finish em []) ∨
    (handleWord b w = .fail .unfinishedPh) ∨
    (handleWord b w = .panick) ∨
    (∃ s' em, handleWord b w = .cont ⟨s', b.stop, b.done⟩ em ∧
      s'.length ≤ b.s.length) := by
  have heta : ∀ em, StepR.cont b em = .cont ⟨b.s, b.stop, b.done⟩ em := fun _ => rfl
  unfold handleWord
  by_cases h1 : w = "jd.".data
  · simp only [if_pos h1]
    exact .inr (.inr (.inr ⟨b.s, _, heta _, le_refl _⟩))
  · simp only [if_neg h1]
    by_cases h2 : w = "jdn.".data
    · simp only [if_pos h2]
      exact .inr (.inr (.inr ⟨b.s, _, heta _, le_refl _⟩))
    · simp only [if_neg h2]
      by_cases h3 : w = "jds.".data
      · simp only [if_pos h3]
        exact .inr (.inr (.inr ⟨b.s, _, heta _, le_refl _⟩))
      · simp only [if_neg h3]
        by_cases h4 : w = "jdm.".data
        · simp only [if_pos h4]
          exact .inr (.inr (.inr ⟨b.s, _, heta _, le_refl _⟩))
        · simp only [if_neg h4]
          by_cases h5 : w = "etw.".data ∨ w = "sich".data
          · simp only [if_pos h5]
            exact phStep_shape b w
          · simp only [if_neg h5]
            exact .inr (.inr (.inr ⟨b.s, _, heta _, le_refl _⟩))

theorem stepBase_shape (b : Base) :
    (∃ e, stepBase b = .fail e) ∨
    (stepBase b = .panick) ∨
    (∃ em left, stepBase b = .finish em left ∧ left.length ≤ b.s.length) ∨
    (∃ b' em, stepBase b = .cont b' em ∧ b'.s.length < b.s.length) ∨
    (∃ rest, stepBase b = .extraEnter rest b.stop ∧ rest.length < b.s.length) := by
  unfold stepBase
  by_cases hdone : b.s.isEmpty ∨ b.done
  · simp only [hdone, if_pos rfl]
    by_cases hse : b.stop ∧ ¬ b.done
    · simp only [if_pos hse]
      exact .inl ⟨_, rfl⟩
    · simp only [if_neg hse]
      exact .inr (.inr (.inl ⟨[], b.s, rfl, le_refl _⟩))
  · simp only [hdone, Bool.false_eq_true, if_false]
    have hpos : 0 < b.s.length := by
      rcases not_or.mp hdone with ⟨h1, _⟩
      cases hbs : b.s with
      | nil => rw [hbs] at h1; simp at h1
      | cons a as => simp [hbs]
    -- the word-scan case split
    cases hsply : splitAtSpecial (if b.stop then isSpecialWEP else isSpecial) b.s with
    | none =>
      rcases handleWord_shape ⟨[], b.stop, b.done⟩ b.s with ⟨em, he⟩ | he | he |
        ⟨s', em, he, hl⟩
      · exact .inr (.inr (.inl ⟨em, [], he, by simp⟩))
      · exact .inl ⟨_, he⟩
      · exact .inr (.inl he)
      · refine .inr (.inr (.inr (.inl ⟨⟨s', b.stop, b.done⟩, em, he, ?_⟩)))
        have hl2 : s'.length ≤ 0 := by simpa using hl
        show s'.length < b.s.length
        omega
    | some t =>
      obtain ⟨pre, ch, post⟩ := t
      have hsuf := (splitAtSpecial_some hsply).1
      have hpost : post.length < b.s.length := by
        rw [hsuf]; simp only [List.length_append, List.length_cons]; omega
      have hcpost : (ch :: post).length ≤ b.s.length := by
        rw [hsuf]; simp only [List.length_append, List.length_cons]; omega
      by_cases hc1 : ch = ' '
      · simp only [if_pos hc1]
        by_cases hp : pre.isEmpty
        · simp only [hp, if_pos rfl]
          exact .inr (.inr (.inr (.inl ⟨_, _, rfl, hpost⟩)))
        · simp only [hp, Bool.false_eq_true, if_false]
          rcases handleWord_shape ⟨post, b.stop, b.done⟩ pre with ⟨em, he⟩ | he | he |
            ⟨s', em, he, hl⟩
          · exact .inr (.inr (.inl ⟨em, [], he, by simp⟩))
          · exact .inl ⟨_, he⟩
          · exact .inr (.inl he)
          · refine .inr (.inr (.inr (.inl ⟨⟨s', b.stop, b.done⟩, em, he, ?_⟩)))
            have hl2 : s'.length ≤ post.length := by simpa using hl
            show s'.length < b.s.length
            omega
      · simp only [if_neg hc1]
        by_cases hc2 : ch = '/'
        · simp only [if_pos hc2]
          by_cases hp : pre.isEmpty
          · simp only [hp, if_pos rfl]
            exact .inr (.inr (.inr (.inl ⟨_, _, rfl, hpost⟩)))
          · simp only [hp, Bool.false_eq_true, if_false]
            have hprelen : 0 < pre.length := by
              cases hpre : pre with
              | nil => rw [hpre] at hp; simp at hp
              | cons a as => simp
            rcases handleWord_shape ⟨ch :: post, b.stop, b.done⟩ pre with ⟨em, he⟩ | he | he |
              ⟨s', em, he, hl⟩
            · exact .inr (.inr (.inl ⟨em, [], he, by simp⟩))
            · exact .inl ⟨_, he⟩
            · exact .inr (.inl he)
            · refine .inr (.inr (.inr (.inl ⟨⟨s', b.stop, b.done⟩, em, he, ?_⟩)))
              have hl2 : s'.length ≤ post.length + 1 := by simpa using hl
              show s'.length < b.s.length
              rw [hsuf]
              simp only [List.length_append, List.length_cons]
              omega
        · simp only [if_neg hc2]
          by_cases hc3 : ch = '['
          · simp only [if_pos hc3]
            rcases annStep_shape .explanation ⟨post, b.stop, b.done⟩ with he | ⟨em, he⟩ |
              ⟨s', em, he, hl⟩
            · exact .inr (.inl he)
            · exact .inr (.inr (.inl ⟨em, [], he, by simp⟩))
            · refine .inr (.inr (.inr (.inl ⟨⟨s', b.stop, b.done⟩, em, he, ?_⟩)))
              have hl2 : s'.length ≤ post.length := by simpa using hl
              show s'.length < b.s.length
              omega
          · simp only [if_neg hc3]
            by_cases hc4 : ch = '<'
            · simp only [if_pos hc4]
              rcases annStep_shape .alternative ⟨post, b.stop, b.done⟩ with he | ⟨em, he⟩ |
                ⟨s', em, he, hl⟩
              · exact .inr (.inl he)
              · exact .inr (.inr (.inl ⟨em, [], he, by simp⟩))
              · refine .inr (.inr (.inr (.inl ⟨⟨s', b.stop, b.done⟩, em, he, ?_⟩)))
                have hl2 : s'.length ≤ post.length := by simpa using hl
                show s'.length < b.s.length
                omega
            · simp only [if_neg hc4]
              by_cases hc5 : ch = '{'
              · simp only [if_pos hc5]
                rcases curlyStep_shape ⟨post, b.stop, b.done⟩ with ⟨e, he⟩ | ⟨s', em, he, hl⟩
                · exact .inl ⟨_, he⟩
                · refine .inr (.inr (.inr (.inl ⟨⟨s', b.stop, b.done⟩, em, he, ?_⟩)))
                  have hl2 : s'.length ≤ post.length := by simpa using hl
                  show s'.length < b.s.length
                  omega
              · simp only [if_neg hc5]
                by_cases hc6 : ch = '('
                · simp only [if_pos hc6]
                  by_cases hval : pre.isEmpty ∨ pre.getLast? = some ' '
                  · simp only [if_pos hval]
                    exact .inr (.inr (.inr (.inr ⟨post, rfl, hpost⟩)))
                  · simp only [if_neg hval]
                    rcases kpStart_shape b.stop b.done (pre ++ ['(']) post with ⟨e, he⟩ |
                      ⟨em, he⟩ | ⟨s', em, he, hl⟩
                    · exact .inl ⟨_, he⟩
                    · exact .inr (.inr (.inl ⟨em, [], he, by simp⟩))
                    · refine .inr (.inr (.inr (.inl ⟨⟨s', b.stop, b.done⟩, em, he, ?_⟩)))
                      show s'.length < b.s.length
                      omega
                · simp only [if_neg hc6]
                  by_cases hc7 : ch = ')' ∧ b.stop
                  · simp only [if_pos hc7]
                    by_cases hp : pre.isEmpty
                    · simp only [hp, if_pos rfl]
                      exact .inr (.inr (.inl ⟨[], post, rfl, le_of_lt hpost⟩))
                    · simp only [hp, Bool.false_eq_true, if_false]
                      rcases handleWord_shape ⟨post, b.stop, true⟩ pre with ⟨em, he⟩ | he |
                        he | ⟨s', em, he, hl⟩
                      · exact .inr (.inr (.inl ⟨em, [], he, by simp⟩))
                      · exact .inl ⟨_, he⟩
                      · exact .inr (.inl he)
                      · refine .inr (.inr (.inr (.inl ⟨⟨s', b.stop, true⟩, em, he, ?_⟩)))
                        have hl2 : s'.length ≤ post.length := by simpa using hl
                        show s'.length < b.s.length
                        omega
                  · simp only [if_neg hc7]
                    exact .inl ⟨_, rfl⟩

theorem stepBase_cont_lt {b b' : Base} {em : List Part}
    (h : stepBase b = .cont b' em) : b'.s.length < b.s.length := by
  rcases stepBase_shape b with ⟨e, he⟩ | hp | ⟨em', l, hf, _⟩ | ⟨b'', em'', hc, hl⟩ |
    ⟨r, hx, _⟩
  · rw [h] at he; cases he
  · rw [h] at hp; cases hp
  · rw [h] at hf; cases hf
  · have := h.symm.trans hc
    injection this with h1 h2
    rw [h1]
    exact hl
  · rw [h] at hx; cases hx

theorem stepBase_extra_lt {b : Base} {rest : List Char} {stp : Bool}
    (h : stepBase b = .extraEnter rest stp) :
    rest.length < b.s.length ∧ stp = b.stop := by
  rcases stepBase_shape b with ⟨e, he⟩ | hp | ⟨em', l, hf, _⟩ | ⟨b'', em'', hc, _⟩ |
    ⟨r, hx, hl⟩
  · rw [h] at he; cases he
  · rw [h] at hp; cases hp
  · rw [h] at hf; cases hf
  · rw [h] at hc; cases hc
  · have := h.symm.trans hx
    injection this with h1 h2
    refine ⟨?_, h2⟩
    rw [h1]
    exact hl

theorem stepBase_finish_le {b : Base} {em : List Part} {left : List Char}
    (h : stepBase b = .finish em left) : left.length ≤ b.s.length := by
  rcases stepBase_shape b with ⟨e, he⟩ | hp | ⟨em', l, hf, hl⟩ | ⟨b'', em'', hc, _⟩ |
    ⟨r, hx, _⟩
  · rw [h] at he; cases he
  · rw [h] at hp; cases hp
  · have := h.symm.trans hf
    injection this with h1 h2
    rw [h2]
    exact hl
  · rw [h] at hc; cases hc
  · rw [h] at hx; cases hx

/-! ## The driver loop: fuel adequacy and the step equations -/

theorem runF_bundle : ∀ (n : Nat) (b : Base), b.s.length < n →
    runF n b ≠ .fuelOut ∧ (runF n b).leftLen ≤ b.s.length ∧
    ∀ m, b.s.length < m → runF m b = runF n b := by
  intro n
  induction n with
  | zero => intro b h; omega
  | succ n ih =>
    intro b hb
    cases hstep : stepBase b with
    | cont b' em =>
      have hlt : b'.s.length < b.s.length := stepBase_cont_lt hstep
      obtain ⟨hne, hll, heq⟩ := ih b' (by omega)
      have hrun : runF (n + 1) b = (runF n b').prepend em := by
        simp only [runF, hstep]
      refine ⟨?_, ?_, ?_⟩
      · intro hx
        rw [hrun] at hx
        exact hne ((POut.prepend_fuelOut_iff _ _).mp hx)
      · rw [hrun, POut.leftLen_prepend]
        omega
      · intro m hm
        cases m with
        | zero => omega
        | succ m =>
          have hx : runF (m + 1) b = (runF m b').prepend em := by
            simp only [runF, hstep]
          rw [hx, hrun, heq m (by omega)]
    | extraEnter rest stp =>
      obtain ⟨hlt, hstp⟩ := stepBase_extra_lt hstep
      obtain ⟨hne1, hll1, heq1⟩ := ih ⟨rest, true, false⟩ (by dsimp; omega)
      have hrun : runF (n + 1) b =
          (match runF n ⟨rest, true, false⟩ with
            | .ok parts leftover => (runF n ⟨leftover, stp, false⟩).prepend [.extra parts]
            | .err e => .err e
            | .panicked => .panicked
            | .fuelOut => .fuelOut) := by
        simp only [runF, hstep]
      cases hres : runF n ⟨rest, true, false⟩ with
      | ok parts leftover =>
        have hlo : leftover.length ≤ rest.length := by
          have h0 := hll1
          rw [hres] at h0
          simpa [POut.leftLen] using h0
        obtain ⟨hne2, hll2, heq2⟩ := ih ⟨leftover, stp, false⟩ (by dsimp; omega)
        have hrun2 : runF (n + 1) b =
            (runF n ⟨leftover, stp, false⟩).prepend [.extra parts] := by
          rw [hrun, hres]
        refine ⟨?_, ?_, ?_⟩
        · intro hx
          rw [hrun2] at hx
          exact hne2 ((POut.prepend_fuelOut_iff _ _).mp hx)
        · rw [hrun2, POut.leftLen_prepend]
          dsimp at hll2
          omega
        · intro m hm
          cases m with
          | zero => omega
          | succ m =>
            have hx : runF (m + 1) b =
                (match runF m ⟨rest, true, false⟩ with
                  | .ok parts leftover =>
                    (runF m ⟨leftover, stp, false⟩).prepend [.extra parts]
                  | .err e => .err e
                  | .panicked => .panicked
                  | .fuelOut => .fuelOut) := by
              simp only [runF, hstep]
            have hx2 : runF (m + 1) b =
                (runF m ⟨leftover, stp, false⟩).prepend [.extra parts] := by
              rw [hx, heq1 m (by dsimp; omega), hres]
            rw [hx2, hrun2, heq2 m (by dsimp; omega)]
      | err e =>
        refine ⟨?_, ?_, ?_⟩
        · rw [hrun, hres]
          simp
        · rw [hrun, hres]
          simp [POut.leftLen]
        · intro m hm
          cases m with
          | zero => omega
          | succ m =>
            have hx : runF (m + 1) b =
                (match runF m ⟨rest, true, false⟩ with
                  | .ok parts leftover =>
                    (runF m ⟨leftover, stp, false⟩).prepend [.extra parts]
                  | .err e => .err e
                  | .panicked => .panicked
                  | .fuelOut => .fuelOut) := by
              simp only [runF, hstep]
            have hx2 := hx.trans (by rw [heq1 m (by dsimp; omega), hres])
            rw [hx2, hrun, hres]
      | panicked =>
        refine ⟨?_, ?_, ?_⟩
        · rw [hrun, hres]
          simp
        · rw [hrun, hres]
          simp [POut.leftLen]
        · intro m hm
          cases m with
          | zero => omega
          | succ m =>
            have hx : runF (m + 1) b =
                (match runF m ⟨rest, true, false⟩ with
                  | .ok parts leftover =>
                    (runF m ⟨leftover, stp, false⟩).prepend [.extra parts]
                  | .err e => .err e
                  | .panicked => .panicked
                  | .fuelOut => .fuelOut) := by
              simp only [runF, hstep]
            have hx2 := hx.trans (by rw [heq1 m (by dsimp; omega), hres])
            rw [hx2, hrun, hres]
      | fuelOut => exact absurd hres hne1
    | finish em left =>
      have hrun : runF (n + 1) b = .ok em left := by
        simp only [runF, hstep]
      refine ⟨by rw [hrun]; simp, ?_, ?_⟩
      · rw [hrun]
        simpa [POut.leftLen] using stepBase_finish_le hstep
      · intro m hm
        cases m with
        | zero => omega
        | succ m =>
          rw [hrun]
          simp only [runF, hstep]
    | fail e =>
      have hrun : runF (n + 1) b = .err e := by
        simp only [runF, hstep]
      refine ⟨by rw [hrun]; simp, by rw [hrun]; simp [POut.leftLen], ?_⟩
      intro m hm
      cases m with
      | zero => omega
      | succ m =>
        rw [hrun]
        simp only [runF, hstep]
    | panick =>
      have hrun : runF (n + 1) b = .panicked := by
        simp only [runF, hstep]
      refine ⟨by rw [hrun]; simp, by rw [hrun]; simp [POut.leftLen], ?_⟩
      intro m hm
      cases m with
      | zero => omega
      | succ m =>
        rw [hrun]
        simp only [runF, hstep]

theorem parseRun_finish {s : List Char} {st dn : Bool} {em : List Part} {left : List Char}
    (h : stepBase ⟨s, st, dn⟩ = .finish em left) : parseRun s st dn = .ok em left := by
  unfold parseRun
  simp only [runF, h]

theorem parseRun_fail {s : List Char} {st dn : Bool} {e : PErr}
    (h : stepBase ⟨s, st, dn⟩ = .fail e) : parseRun s st dn = .err e := by
  unfold parseRun
  simp only [runF, h]

theorem parseRun_panick {s : List Char} {st dn : Bool}
    (h : stepBase ⟨s, st, dn⟩ = .panick) : parseRun s st dn = .panicked := by
  unfold parseRun
  simp only [runF, h]

theorem parseRun_cont {s : List Char} {st dn : Bool} {b' : Base} {em : List Part}
    (h : stepBase ⟨s, st, dn⟩ = .cont b' em) :
    parseRun s st dn = (parseRun b'.s b'.stop b'.done).prepend em := by
  unfold parseRun
  have hlt : b'.s.length < s.length := stepBase_cont_lt h
  have h1 : runF (s.length + 1) ⟨s, st, dn⟩ = (runF s.length b').prepend em := by
    simp only [runF, h]
  rw [h1]
  congr 1
  exact (runF_bundle (b'.s.length + 1) b' (by omega)).2.2 s.length (by omega)

theorem parseRun_extra {s : List Char} {st dn : Bool} {rest : List Char} {stp : Bool}
    (h : stepBase ⟨s, st, dn⟩ = .extraEnter rest stp) :
    parseRun s st dn =
      match parseRun rest true false with
      | .ok parts leftover => (parseRun leftover stp false).prepend [.extra parts]
      | .err e => .err e
      | .panicked => .panicked
      | .fuelOut => .fuelOut := by
  obtain ⟨hlt, hstp⟩ := stepBase_extra_lt h
  have hlt' : rest.length < s.length := hlt
  unfold parseRun
  have h1 : runF (s.length + 1) ⟨s, st, dn⟩ =
      (match runF s.length ⟨rest, true, false⟩ with
        | .ok parts leftover => (runF s.length ⟨leftover, stp, false⟩).prepend [.extra parts]
        | .err e => .err e
        | .panicked => .panicked
        | .fuelOut => .fuelOut) := by
    simp only [runF, h]
  rw [h1]
  have e1 : runF s.length ⟨rest, true, false⟩ = runF (rest.length + 1) ⟨rest, true, false⟩ :=
    (runF_bundle (rest.length + 1) ⟨rest, true, false⟩ (by dsimp; omega)).2.2
      s.length (by dsimp; omega)
  rw [e1]
  cases hres : runF (rest.length + 1) ⟨rest, true, false⟩ with
  | ok parts leftover =>
    have hlo : leftover.length ≤ rest.length := by
      have h0 := (runF_bundle (rest.length + 1) ⟨rest, true, false⟩ (by dsimp; omega)).2.1
      rw [hres] at h0
      simpa [POut.leftLen] using h0
    have e2 : runF s.length ⟨leftover, stp, false⟩ =
        runF (leftover.length + 1) ⟨leftover, stp, false⟩ :=
      (runF_bundle (leftover.length + 1) ⟨leftover, stp, false⟩ (by dsimp; omega)).2.2
        s.length (by dsimp; omega)
    show (runF s.length ⟨leftover, stp, false⟩).prepend [.extra parts] =
      (runF (leftover.length + 1) ⟨leftover, stp, false⟩).prepend [.extra parts]
    rw [e2]
  | err e => rfl
  | panicked => rfl
  | fuelOut => rfl

/-! ## Rendering: fold form, sort characterization, annotation removal -/

theorem renderAux_eq_fold : ∀ (ps : List Part) (out : List Char),
    renderAux ps out = renderFold out (ps.filterMap renderOpt) := by
  intro ps
  induction ps with
  | nil => intro out; simp [renderAux, renderFold]
  | cons p ps ih =>
    intro out
    cases hro : renderOpt p with
    | none => simp only [renderAux, hro, List.filterMap_cons, ih]
    | some w => simp only [renderAux, hro, List.filterMap_cons, renderFold, ih]

theorem displayCmp_lt (y x : Part) : (displayCmp y x == .lt) = isGenderP y := by
  cases y <;> cases x <;> rfl

theorem displayInsert_gender_front (x : Part) : ∀ (gs os : List Part),
    (∀ g ∈ gs, isGenderP g = true) → (∀ o ∈ os, isGenderP o = false) →
    displayInsert x (gs ++ os) = gs ++ x :: os := by
  intro gs
  induction gs with
  | nil =>
    intro os _ hos
    cases os with
    | nil => rfl
    | cons o os' =>
      have := hos o (by simp)
      simp [displayInsert, displayCmp_lt, this]
  | cons g gs' ih =>
    intro os hgs hos
    have hg := hgs g (by simp)
    simp only [List.cons_append, displayInsert, displayCmp_lt, hg, if_true,
      List.append_eq]
    rw [ih os (fun a ha => hgs a (by simp [ha])) hos]

theorem displaySort_eq (ps : List Part) :
    displaySort ps = (ps.filter isGenderP).reverse ++ ps.filter (fun p => ! isGenderP p) := by
  induction ps with
  | nil => rfl
  | cons x xs ih =>
    have hgs : ∀ g ∈ (xs.filter isGenderP).reverse, isGenderP g = true := by
      intro g hg
      rw [List.mem_reverse] at hg
      exact (List.mem_filter.mp hg).2
    have hos : ∀ o ∈ xs.filter (fun p => ! isGenderP p), isGenderP o = false := by
      intro o ho
      have := (List.mem_filter.mp ho).2
      simpa using this
    show displayInsert x (displaySort xs) = _
    rw [ih, displayInsert_gender_front x _ _ hgs hos]
    by_cases hx : isGenderP x
    · simp [List.filter_cons, hx]
    · simp only [List.filter_cons, hx, Bool.false_eq_true, if_false, Bool.not_false,
        if_pos rfl]
      simp at hx
      simp [hx]

theorem rend_removeAnns : ∀ (l : List Part),
    (removeAnns l).filterMap renderOpt = l.filterMap renderOpt := by
  intro l
  induction l using removeAnns.induct with
  | case1 => simp [removeAnns]
  | case2 v ps ih => simp [removeAnns, ih, renderOpt]
  | case3 v ps ih => simp [removeAnns, ih, renderOpt]
  | case4 qs ps ihq ihp =>
    have hinner : renderList (removeAnns qs) = renderList qs := by
      unfold renderList
      rw [renderAux_eq_fold, renderAux_eq_fold, ihq]
    simp [removeAnns, renderOpt, ihp, hinner]
  | case5 p ps h1 h2 h3 ihp =>
    cases p with
    | keyword w => simp [removeAnns, renderOpt, ihp]
    | extra qs => exact absurd rfl (h3 qs)
    | variantSeparator => simp [removeAnns, renderOpt, ihp]
    | placeholder ph => simp [removeAnns, renderOpt, ihp]
    | gender g => simp [removeAnns, renderOpt, ihp]
    | ann k v =>
      cases k with
      | explanation => exact absurd rfl (h1 v)
      | alternative => exact absurd rfl (h2 v)
      | number => simp [removeAnns, renderOpt, ihp]

theorem filter_gender_removeAnns : ∀ (l : List Part),
    (removeAnns l).filter isGenderP = l.filter isGenderP := by
  intro l
  induction l using removeAnns.induct with
  | case1 => simp [removeAnns]
  | case2 v ps ih => simp [removeAnns, List.filter_cons, isGenderP, ih]
  | case3 v ps ih => simp [removeAnns, List.filter_cons, isGenderP, ih]
  | case4 qs ps ihq ihp => simp [removeAnns, List.filter_cons, isGenderP, ihp]
  | case5 p ps h1 h2 h3 ihp =>
    cases p with
    | keyword w => simp [removeAnns, List.filter_cons, isGenderP, ihp]
    | extra qs => exact absurd rfl (h3 qs)
    | variantSeparator => simp [removeAnns, List.filter_cons, isGenderP, ihp]
    | placeholder ph => simp [removeAnns, List.filter_cons, isGenderP, ihp]
    | gender g => simp [removeAnns, List.filter_cons, isGenderP, ihp]
    | ann k v =>
      cases k with
      | explanation => exact absurd rfl (h1 v)
      | alternative => exact absurd rfl (h2 v)
      | number => simp [removeAnns, List.filter_cons, isGenderP, ihp]

theorem isGenderP_kw (w : List Char) : isGenderP (.keyword w) = false := rfl

theorem isGenderP_ex (qs : List Part) : isGenderP (.extra qs) = false := rfl

theorem isGenderP_vs : isGenderP .variantSeparator = false := rfl

theorem isGenderP_ph (p : Ph) : isGenderP (.placeholder p) = false := rfl

theorem isGenderP_ann (k : AnnKind) (v : List Char) : isGenderP (.ann k v) = false := rfl

theorem isGenderP_g (g : Gender) : isGenderP (.gender g) = true := rfl

theorem filter_nongender_removeAnns : ∀ (l : List Part),
    (removeAnns l).filter (fun p => ! isGenderP p) =
      removeAnns (l.filter fun p => ! isGenderP p) := by
  intro l
  induction l using removeAnns.induct with
  | case1 => simp [removeAnns]
  | case2 v ps ih => simp [removeAnns, List.filter_cons, isGenderP_ann, ih]
  | case3 v ps ih => simp [removeAnns, List.filter_cons, isGenderP_ann, ih]
  | case4 qs ps ihq ihp => simp [removeAnns, List.filter_cons, isGenderP_ex, ihp]
  | case5 p ps h1 h2 h3 ihp =>
    cases p with
    | keyword w => simp [removeAnns, List.filter_cons, isGenderP_kw, ihp]
    | extra qs => exact absurd rfl (h3 qs)
    | variantSeparator => simp [removeAnns, List.filter_cons, isGenderP_vs, ihp]
    | placeholder ph => simp [removeAnns, List.filter_cons, isGenderP_ph, ihp]
    | gender g => simp [removeAnns, List.filter_cons, isGenderP_g, ihp]
    | ann k v =>
      cases k with
      | explanation => exact absurd rfl (h1 v)
      | alternative => exact absurd rfl (h2 v)
      | number => simp [removeAnns, List.filter_cons, isGenderP_ann, ihp]

theorem endsSlash_append (a w : List Char) (hw : w ≠ []) :
    endsSlash (a ++ w) = endsSlash w := by
  unfold endsSlash
  rw [List.getLast?_append_of_ne_nil a hw]

theorem renderFold_glue : ∀ (ws : List (List Char)), (∀ w ∈ ws, w ≠ []) →
    ∀ (out : List Char), out ≠ [] →
    renderFold out ws = out ++ glueFrom (endsSlash out) ws := by
  intro ws
  induction ws with
  | nil => intro _ out _; simp [renderFold, glueFrom]
  | cons w ws ih =>
    intro hws out hout
    have hw : w ≠ [] := hws w (by simp)
    have hsep : (if out ≠ [] ∧ ¬ endsSlash out ∧ w ≠ ['/'] then ([' '] : List Char) else []) =
        sepC (endsSlash out) w := by
      unfold sepC
      simp [hout]
    have hout2 : out ++ sepC (endsSlash out) w ++ w ≠ [] := by simp [hw]
    have h1 : renderFold out (w :: ws) =
        renderFold (out ++ sepC (endsSlash out) w ++ w) ws := by
      show renderFold (out ++ _ ++ w) ws = _
      rw [hsep]
    rw [h1, ih (fun x hx => hws x (by simp [hx])) _ hout2,
      endsSlash_append (out ++ sepC (endsSlash out) w) w hw]
    show _ = out ++ (sepC (endsSlash out) w ++ w ++ glueFrom (endsSlash w) ws)
    simp [List.append_assoc]

theorem renderList_glue (ps : List Part)
    (h : ∀ w ∈ ps.filterMap renderOpt, w ≠ []) :
    renderList ps = glueFrom true (ps.filterMap renderOpt) := by
  unfold renderList
  rw [renderAux_eq_fold]
  cases hws : ps.filterMap renderOpt with
  | nil => simp [renderFold, glueFrom]
  | cons w ws =>
    have hw : w ≠ [] := by
      apply h
      rw [hws]
      simp
    have h1 : renderFold [] (w :: ws) = renderFold w ws := by
      show renderFold ([] ++ _ ++ w) ws = _
      simp
    rw [h1, renderFold_glue ws (fun x hx => h x (by rw [hws]; simp [hx])) w hw]
    show w ++ glueFrom (endsSlash w) ws = sepC true w ++ w ++ glueFrom (endsSlash w) ws
    simp [sepC]

theorem specJoin_glue : ∀ (ws : List (List Char)), specJoin ws = glueFrom true ws := by
  intro ws
  induction ws with
  | nil => rfl
  | cons w1 ws ih =>
    cases ws with
    | nil => simp [specJoin, glueFrom, sepC]
    | cons w2 ws' =>
      show w1 ++ _ ++ specJoin (w2 :: ws') = _
      rw [ih]
      show _ = sepC true w1 ++ w1 ++
        (sepC (endsSlash w1) w2 ++ w2 ++ glueFrom (endsSlash w2) ws')
      by_cases h1 : endsSlash w1 <;> by_cases h2 : w2 = ['/'] <;>
        simp [sepC, glueFrom, h1, h2, List.append_assoc]

/-- C10: the canonical display of a term equals the canonical display of
the term with every Explanation and Alternative annotation (recursively)
removed — those parts never contribute to the rendering. -/
theorem c10_display_removal (t : Term) :
    Term.display ⟨removeAnns t.parts⟩ = Term.display t := by
  show display (removeAnns t.parts) = display t.parts
  unfold display renderList
  rw [renderAux_eq_fold, renderAux_eq_fold, displaySort_eq, displaySort_eq,
    List.filterMap_append, List.filterMap_append,
    filter_gender_removeAnns, filter_nongender_removeAnns, rend_removeAnns]

/-- C2, amended: `match_exact` returns true exactly when the part
sequence contains exactly one keyword part (parts of other kinds are
ignored), the byte lengths agree and the zip-truncating per-character
lowercase fold agrees; in particular the single keyword `"ABC"` matches
both `"Abc"` and `"abc"`. -/
theorem c2_match_exact_amended :
    (∀ (t : Term) (input : List Char),
      t.matchExact input = true ↔
        ∃ k, t.parts.filterMap keywordOf = [k] ∧ byteLen input = byteLen k ∧
          caseFoldEq input k = true) ∧
    Term.matchExact ⟨[.keyword "ABC".data]⟩ "Abc".data = true ∧
    Term.matchExact ⟨[.keyword "ABC".data]⟩ "abc".data = true := by
  refine ⟨?_, rfl, rfl⟩
  intro t input
  unfold Term.matchExact
  cases hk : t.parts.filterMap keywordOf with
  | nil => simp
  | cons k ks =>
    cases ks with
    | nil =>
      simp only [Bool.and_eq_true, beq_iff_eq]
      constructor
      · rintro ⟨h1, h2⟩
        exact ⟨k, rfl, h1, h2⟩
      · rintro ⟨k', hk', h1, h2⟩
        obtain rfl : k' = k := by
          have h3 : k = k' := by simpa using hk'
          exact h3.symm
        exact ⟨h1, h2⟩
    | cons k2 ks' => simp

/-- C4, amended: canonical display puts the gender parts first (their
relative order reversed by the insertion), keeps the remaining parts in
original order, renders each part by its rule, and joins the rendered
parts with single spaces — except that no space is inserted before a
part rendering as a slash, nor after a part whose rendering ends in a
slash.  Stated for terms with no empty rendered piece, which holds of
every parsed term. -/
theorem c4_display_amended (t : Term)
    (h : allRendNonempty t.parts = true) :
    Term.display t = amendRenderC4 t.parts := by
  show display t.parts = amendRenderC4 t.parts
  unfold display amendRenderC4 genderFront
  rw [displaySort_eq]
  have hne : ∀ w ∈ ((t.parts.filter isGenderP).reverse ++
      t.parts.filter fun p => ! isGenderP p).filterMap renderOpt, w ≠ [] := by
    intro w hw
    rw [List.mem_filterMap] at hw
    obtain ⟨p, hp, hpw⟩ := hw
    have hp2 : p ∈ t.parts := by
      rcases List.mem_append.mp hp with h1 | h1
      · exact (List.mem_filter.mp (List.mem_reverse.mp h1)).1
      · exact (List.mem_filter.mp h1).1
    have hmem : w ∈ t.parts.filterMap renderOpt :=
      List.mem_filterMap.mpr ⟨p, hp2, hpw⟩
    have := (List.all_eq_true.mp h) w hmem
    intro hnil
    rw [hnil] at this
    simp at this
  rw [renderList_glue _ hne, specJoin_glue]

theorem c4_display_amended_witness :
    allRendNonempty [Part.keyword "a".data, Part.variantSeparator,
      Part.keyword "b".data] = true ∧
    Term.display ⟨[Part.keyword "a".data, Part.variantSeparator,
      Part.keyword "b".data]⟩ =
      amendRenderC4 [Part.keyword "a".data, Part.variantSeparator,
        Part.keyword "b".data] := by
  have h : allRendNonempty [Part.keyword "a".data, Part.variantSeparator,
      Part.keyword "b".data] = true := by
    simp [allRendNonempty, renderOpt]
  exact ⟨h, c4_display_amended ⟨_⟩ h⟩

end DictCC









namespace DictCC

/-! ## Symbolic evaluation of `stepBase` on structured inputs -/

theorem plainChar_not_special {x : Char} (h : plainChar x = true) :
    isSpecial x = false ∧ isSpecialWEP x = false := by
  simp [plainChar] at h
  obtain ⟨h1, h2, h3, h4, h5, h6, h7⟩ := h
  simp [isSpecial, isSpecialWEP, h1, h2, h3, h4, h5, h6, h7]

theorem pred_false_of_plain (st : Bool) {x : Char} (h : plainChar x = true) :
    (if st then isSpecialWEP else isSpecial) x = false := by
  obtain ⟨h1, h2⟩ := plainChar_not_special h
  cases st <;> simp [h1, h2]

theorem POut.prepend_nil (r : POut) : r.prepend [] = r := by
  cases r <;> simp [POut.prepend]

theorem stepBase_done (s : List Char) (st : Bool) :
    stepBase ⟨s, st, true⟩ = .finish [] s := by
  unfold stepBase
  rw [if_pos (.inr rfl)]
  rw [if_neg (fun h => by simpa using h.2)]

theorem stepBase_nil_top : stepBase ⟨[], false, false⟩ = .finish [] [] := rfl

theorem stepBase_nil_nested : stepBase ⟨[], true, false⟩ = .fail .unclosedParen := rfl

theorem stepBase_space (s : List Char) (st : Bool) :
    stepBase ⟨' ' :: s, st, false⟩ = .cont ⟨s, st, false⟩ [] := by
  cases st <;> rfl

theorem stepBase_slash (s : List Char) (st : Bool) :
    stepBase ⟨'/' :: s, st, false⟩ = .cont ⟨s, st, false⟩ [.variantSeparator] := by
  cases st <;> rfl

theorem stepBase_open (s : List Char) (st : Bool) :
    stepBase ⟨'(' :: s, st, false⟩ = .extraEnter s st := by
  cases st <;> rfl

theorem stepBase_curly (s : List Char) (st : Bool) :
    stepBase ⟨'{' :: s, st, false⟩ = curlyStep ⟨s, st, false⟩ := by
  cases st <;> rfl

theorem stepBase_close (s : List Char) :
    stepBase ⟨')' :: s, true, false⟩ = .finish [] s := rfl

theorem stepBase_word_space (w s : List Char) (st : Bool) (hw : w ≠ [])
    (hpl : ∀ x ∈ w, plainChar x = true) :
    stepBase ⟨w ++ ' ' :: s, st, false⟩ = handleWord ⟨s, st, false⟩ w := by
  have hsplit : splitAtSpecial (if st then isSpecialWEP else isSpecial) (w ++ ' ' :: s)
      = some (w, ' ', s) :=
    splitAtSpecial_append (fun x hx => pred_false_of_plain st (hpl x hx))
      (by cases st <;> rfl) s
  simp only [stepBase]
  rw [if_neg (by simp), hsplit]
  simp [hw]

theorem stepBase_word_slash (w s : List Char) (st : Bool) (hw : w ≠ [])
    (hpl : ∀ x ∈ w, plainChar x = true) :
    stepBase ⟨w ++ '/' :: s, st, false⟩ = handleWord ⟨'/' :: s, st, false⟩ w := by
  have hsplit : splitAtSpecial (if st then isSpecialWEP else isSpecial) (w ++ '/' :: s)
      = some (w, '/', s) :=
    splitAtSpecial_append (fun x hx => pred_false_of_plain st (hpl x hx))
      (by cases st <;> rfl) s
  simp only [stepBase]
  rw [if_neg (by simp), hsplit]
  simp [hw]

theorem stepBase_word_end (w : List Char) (st : Bool) (hw : w ≠ [])
    (hpl : ∀ x ∈ w, plainChar x = true) :
    stepBase ⟨w, st, false⟩ = handleWord ⟨[], st, false⟩ w := by
  have hsplit : splitAtSpecial (if st then isSpecialWEP else isSpecial) w = none :=
    splitAtSpecial_clean_none (fun x hx => pred_false_of_plain st (hpl x hx))
  simp only [stepBase]
  rw [if_neg (by simp [hw]), hsplit]

theorem stepBase_word_close (w s : List Char) (hw : w ≠ [])
    (hpl : ∀ x ∈ w, plainChar x = true) :
    stepBase ⟨w ++ ')' :: s, true, false⟩ = handleWord ⟨s, true, true⟩ w := by
  have hsplit : splitAtSpecial isSpecialWEP (w ++ ')' :: s) = some (w, ')', s) :=
    splitAtSpecial_append (fun x hx => (plainChar_not_special (hpl x hx)).2)
      (show isSpecialWEP ')' = true by decide) s
  simp only [stepBase]
  rw [if_neg (by simp)]
  simp [hsplit, hw]

end DictCC

namespace DictCC

/-! ## `handle_word` and the placeholder lookahead, symbolically -/

theorem handleWord_emit {w : List Char} {em : List Part} (b : Base)
    (h : wordEmit w = some em) : handleWord b w = .cont b em := by
  unfold wordEmit at h
  unfold handleWord
  split_ifs at h ⊢ <;> simp_all

theorem handleWord_of_none {w : List Char} (b : Base)
    (h : wordEmit w = none) : handleWord b w = phStep b w := by
  unfold wordEmit at h
  unfold handleWord
  split_ifs at h ⊢
  simp_all

theorem phStep_nil (st dn : Bool) (w : List Char) :
    phStep ⟨[], st, dn⟩ w = .finish [.placeholder (phKind w none)] [] := rfl

theorem phStep_reset {s : List Char} (st dn : Bool) (w : List Char)
    (h1 : s ≠ []) (h2 : '[' ∉ s.take 2) :
    phStep ⟨s, st, dn⟩ w = .cont ⟨s, st, dn⟩ [.placeholder (phKind w none)] := by
  cases s with
  | nil => exact absurd rfl h1
  | cons c1 r1 =>
    have hc1 : ¬ (c1 = '[') := by
      intro h; exact h2 (by simp [h, List.take])
    cases r1 with
    | nil => simp [phStep, hc1]
    | cons c2 r2 =>
      have hc2 : ¬ (c2 = '[') := by
        intro h; apply h2; simp [List.take, h]
      simp [phStep, hc1, hc2]

/-! ## `parseRun` on structured inputs -/

theorem parseRun_nil_top : parseRun [] false false = .ok [] [] := rfl

theorem parseRun_nil_nested : parseRun [] true false = .err .unclosedParen := rfl

theorem parseRun_done (s : List Char) (st : Bool) :
    parseRun s st true = .ok [] s :=
  parseRun_finish (stepBase_done s st)

theorem parseRun_space (s : List Char) (st : Bool) :
    parseRun (' ' :: s) st false = parseRun s st false := by
  have h := parseRun_cont (stepBase_space s st)
  simpa [POut.prepend_nil] using h

theorem parseRun_slash (s : List Char) (st : Bool) :
    parseRun ('/' :: s) st false = (parseRun s st false).prepend [.variantSeparator] :=
  parseRun_cont (stepBase_slash s st)

theorem parseRun_close (s : List Char) :
    parseRun (')' :: s) true false = .ok [] s :=
  parseRun_finish (stepBase_close s)

/-- A word made only of plain characters, sitting at a space boundary,
emits its parts (the `handle_word` emission, or the reset placeholder of
the lookahead for `"etw."`/`"sich"`) and the parse resumes past the
space. -/
theorem run_word_space (w s : List Char) (em : List Part) (st : Bool) (hw : w ≠ [])
    (hpl : ∀ x ∈ w, plainChar x = true)
    (hem : wordEmit w = some em ∨
      (wordEmit w = none ∧ em = [.placeholder (phKind w none)] ∧
        '[' ∉ s.take 2 ∧ (s ≠ [] ∨ st = false))) :
    parseRun (w ++ ' ' :: s) st false = (parseRun s st false).prepend em := by
  have hb := stepBase_word_space w s st hw hpl
  rcases hem with hem | ⟨hem, he, htk, hne⟩
  · rw [parseRun_cont (hb.trans (handleWord_emit _ hem))]
  · rcases List.eq_nil_or_concat s with rfl | hne2
    · rcases hne with h | rfl
      · exact absurd rfl h
      · rw [parseRun_finish (hb.trans ((handleWord_of_none _ hem).trans
          (phStep_nil false false w)))]
        subst he
        rfl
    · have hsne : s ≠ [] := by rcases hne2 with ⟨a, b, rfl⟩; simp
      rw [parseRun_cont (hb.trans ((handleWord_of_none _ hem).trans
        (phStep_reset st false w hsne htk)))]
      subst he
      rfl

/-- A plain word at a slash boundary: the word is emitted and the parse
resumes at the slash. -/
theorem run_word_slash (w s : List Char) (em : List Part) (st : Bool) (hw : w ≠ [])
    (hpl : ∀ x ∈ w, plainChar x = true)
    (hem : wordEmit w = some em ∨
      (wordEmit w = none ∧ em = [.placeholder (phKind w none)] ∧ '[' ∉ s.take 1)) :
    parseRun (w ++ '/' :: s) st false =
      (parseRun ('/' :: s) st false).prepend em := by
  have hb := stepBase_word_slash w s st hw hpl
  rcases hem with hem | ⟨hem, he, htk⟩
  · rw [parseRun_cont (hb.trans (handleWord_emit _ hem))]
  · have htk2 : '[' ∉ ('/' :: s).take 2 := by
      intro hm
      rcases s with _ | ⟨a, s'⟩
      · simp [List.take] at hm
      · simp [List.take] at hm htk
        exact htk hm
    rw [parseRun_cont (hb.trans ((handleWord_of_none _ hem).trans
      (phStep_reset st false w (by simp) htk2)))]
    subst he
    rfl

/-- A plain word ending the whole (top-level) input: its parts are the
final emission. -/
theorem run_word_end (w : List Char) (em : List Part) (hw : w ≠ [])
    (hpl : ∀ x ∈ w, plainChar x = true)
    (hem : wordEmit w = some em ∨
      (wordEmit w = none ∧ em = [.placeholder (phKind w none)])) :
    parseRun w false false = .ok em [] := by
  have hb := stepBase_word_end w false hw hpl
  rcases hem with hem | ⟨hem, he⟩
  · rw [parseRun_cont (hb.trans (handleWord_emit _ hem))]
    show (parseRun [] false false).prepend em = POut.ok em []
    rw [parseRun_nil_top]
    simp [POut.prepend]
  · rw [parseRun_finish (hb.trans ((handleWord_of_none _ hem).trans
      (phStep_nil false false w)))]
    subst he
    rfl

/-- A plain word directly before the closing parenthesis of a nested
parse: the word is emitted, the group closes, and everything after the
parenthesis is left over. -/
theorem run_word_close (w s : List Char) (em : List Part) (hw : w ≠ [])
    (hpl : ∀ x ∈ w, plainChar x = true)
    (hem : wordEmit w = some em ∨
      (wordEmit w = none ∧ em = [.placeholder (phKind w none)] ∧ '[' ∉ s.take 2)) :
    parseRun (w ++ ')' :: s) true false = .ok em s := by
  have hb := stepBase_word_close w s hw hpl
  rcases hem with hem | ⟨hem, he, htk⟩
  · rw [parseRun_cont (hb.trans (handleWord_emit _ hem))]
    rw [parseRun_done]
    simp [POut.prepend]
  · rcases List.eq_nil_or_concat s with rfl | hne2
    · rw [parseRun_finish (hb.trans ((handleWord_of_none _ hem).trans
        (phStep_nil true true w)))]
      subst he
      rfl
    · have hsne : s ≠ [] := by rcases hne2 with ⟨a, b, rfl⟩; simp
      rw [parseRun_cont (hb.trans ((handleWord_of_none _ hem).trans
        (phStep_reset true true w hsne htk)))]
      rw [parseRun_done]
      subst he
      rfl

end DictCC

namespace DictCC

/-- C7: inside a `{...}` clause the text up to the next `}` is classified
exactly as the claim states (the three genders, the four number markers,
anything else silently dropped: `curlyEmit` from the source coincides
with the claim-side `curlyClassify`), the parse resumes right after the
`}` with the classified parts prefixed, and a missing `}` always aborts
the parse with the hard `unfinished curly clause` error. -/
theorem c7_curly :
    (∀ (w rest : List Char) (st : Bool), '}' ∉ w →
      parseRun ('{' :: (w ++ '}' :: rest)) st false =
        (parseRun rest st false).prepend (curlyEmit w)) ∧
    (∀ (s : List Char) (st : Bool), '}' ∉ s →
      parseRun ('{' :: s) st false = .err .unfinishedCurly) ∧
    (∀ w : List Char, curlyEmit w = curlyClassify w) := by
  refine ⟨?_, ?_, fun w => rfl⟩
  · intro w rest st hcw
    have hsp : splitAtSpecial (· = '}') (w ++ '}' :: rest) = some (w, '}', rest) :=
      splitAtSpecial_append
        (fun x hx => by
          have hne : x ≠ '}' := fun h => hcw (h ▸ hx)
          simpa using hne)
        (by simp) rest
    have hc : curlyStep ⟨w ++ '}' :: rest, st, false⟩ =
        .cont ⟨rest, st, false⟩ (curlyEmit w) := by
      unfold curlyStep
      rw [hsp]
    exact parseRun_cont ((stepBase_curly _ st).trans hc)
  · intro s st hcw
    have hsp : splitAtSpecial (· = '}') s = none :=
      splitAtSpecial_clean_none
        (fun x hx => by
          have hne : x ≠ '}' := fun h => hcw (h ▸ hx)
          simpa using hne)
    have hc : curlyStep ⟨s, st, false⟩ = .fail .unfinishedCurly := by
      unfold curlyStep
      rw [hsp]
    exact parseRun_fail ((stepBase_curly _ st).trans hc)

theorem c7_curly_witness :
    ('}' : Char) ∉ "pl".data ∧
    parseRun ('{' :: ("pl".data ++ '}' :: [])) false false =
      (parseRun [] false false).prepend (curlyEmit "pl".data) ∧
    parseRun ('{' :: "x".data) false false = .err .unfinishedCurly :=
  ⟨by decide, c7_curly.1 "pl".data [] false (by decide),
    c7_curly.2.1 "x".data false (by decide)⟩

end DictCC

namespace DictCC

/-- C6 (amended): the placeholder lookahead entered after `"etw."` or
`"sich"`.  Entry: an immediate `[`, or a `[` after one one-byte junk
character, hands over to `phAfter`; a two-byte first character or no `[`
in the first two bytes emits `Placeholder(kind, None)` and resumes the
base state unchanged, and an empty remainder finishes the parse with
that placeholder.  After the `[`: an empty remainder is the hard
`unfinished placeholder case` error; an optional `+` is stripped; a
recognized 3-letter case code followed by `]` emits
`Placeholder(kind, Some case)` and resumes past it; fewer than five
remaining bytes, an unrecognized code, or a one-byte character other
than `]` after the code soft-fail back to the unchanged base state; a
multi-byte character directly after a recognized code panics. -/
theorem c6_lookahead_amended :
    (∀ (st dn : Bool) (w : List Char),
      phStep ⟨[], st, dn⟩ w = .finish [.placeholder (phKind w none)] []) ∧
    (∀ (b : Base) (w r : List Char), b.s = '[' :: r →
      phStep b w = phAfter b w r) ∧
    (∀ (b : Base) (w r : List Char) (c : Char),
      b.s = c :: '[' :: r → c ≠ '[' → c.utf8Size = 1 →
      phStep b w = phAfter b w r) ∧
    (∀ (b : Base) (w : List Char), b.s ≠ [] → '[' ∉ b.s.take 2 →
      phStep b w = .cont b [.placeholder (phKind w none)]) ∧
    (∀ (b : Base) (w r : List Char) (c : Char),
      b.s = c :: '[' :: r → c.utf8Size ≠ 1 →
      phStep b w = .cont b [.placeholder (phKind w none)]) ∧
    (∀ (b : Base) (w : List Char), phAfter b w [] = .fail .unfinishedPh) ∧
    (∀ (b : Base) (w r r' r4 : List Char) (cs : Case),
      r' = (if r.head? == some '+' then r.tail else r) → r ≠ [] →
      ¬ byteLen r' < 5 → caseOfCode (r'.take 4) = some cs →
      r'.drop 4 = ']' :: r4 →
      phAfter b w r = .cont { b with s := r4 } [.placeholder (phKind w (some cs))]) ∧
    (∀ (b : Base) (w r r' : List Char),
      r' = (if r.head? == some '+' then r.tail else r) → r ≠ [] →
      byteLen r' < 5 →
      phAfter b w r = .cont b [.placeholder (phKind w none)]) ∧
    (∀ (b : Base) (w r r' : List Char),
      r' = (if r.head? == some '+' then r.tail else r) → r ≠ [] →
      ¬ byteLen r' < 5 → caseOfCode (r'.take 4) = none →
      phAfter b w r = .cont b [.placeholder (phKind w none)]) ∧
    (∀ (b : Base) (w r r' r4 : List Char) (cs : Case) (c5 : Char),
      r' = (if r.head? == some '+' then r.tail else r) → r ≠ [] →
      ¬ byteLen r' < 5 → caseOfCode (r'.take 4) = some cs →
      r'.drop 4 = c5 :: r4 → c5.utf8Size ≠ 1 →
      phAfter b w r = .panick) ∧
    (∀ (b : Base) (w r r' r4 : List Char) (cs : Case) (c5 : Char),
      r' = (if r.head? == some '+' then r.tail else r) → r ≠ [] →
      ¬ byteLen r' < 5 → caseOfCode (r'.take 4) = some cs →
      r'.drop 4 = c5 :: r4 → c5.utf8Size = 1 → c5 ≠ ']' →
      phAfter b w r = .cont b [.placeholder (phKind w none)]) := by
  refine ⟨fun st dn w => rfl, ?_, ?_, ?_, ?_, fun b w => rfl, ?_, ?_, ?_, ?_, ?_⟩
  · intro b w r h
    obtain ⟨s, st, dn⟩ := b
    simp only at h
    subst h
    simp [phStep]
  · intro b w r c h hc hsz
    obtain ⟨s, st, dn⟩ := b
    simp only at h
    subst h
    simp [phStep, hc, hsz]
  · intro b w h1 h2
    obtain ⟨s, st, dn⟩ := b
    exact phStep_reset st dn w h1 h2
  · intro b w r c h hsz
    obtain ⟨s, st, dn⟩ := b
    simp only at h
    subst h
    have hc : c ≠ '[' := fun hh => hsz (by rw [hh]; rfl)
    simp [phStep, hc, hsz]
  · intro b w r r' r4 cs hr' hne hlen hcode hdrop
    unfold phAfter
    rw [if_neg (by simp [hne]), ← hr']
    rw [if_neg hlen]
    simp only [hcode, hdrop]
    simp
    decide
  · intro b w r r' hr' hne hlen
    unfold phAfter
    rw [if_neg (by simp [hne]), ← hr']
    rw [if_pos hlen]
  · intro b w r r' hr' hne hlen hcode
    unfold phAfter
    rw [if_neg (by simp [hne]), ← hr']
    rw [if_neg hlen]
    simp only [hcode]
  · intro b w r r' r4 cs c5 hr' hne hlen hcode hdrop hsz
    unfold phAfter
    rw [if_neg (by simp [hne]), ← hr']
    rw [if_neg hlen]
    simp only [hcode, hdrop]
    simp [hsz]
  · intro b w r r' r4 cs c5 hr' hne hlen hcode hdrop hsz hc5
    unfold phAfter
    rw [if_neg (by simp [hne]), ← hr']
    rw [if_neg hlen]
    simp only [hcode, hdrop]
    simp [hsz, hc5]

theorem c6_lookahead_amended_witness :
    phStep ⟨"x[+Akk.]y".data, false, false⟩ "etw.".data =
      phAfter ⟨"x[+Akk.]y".data, false, false⟩ "etw.".data "+Akk.]y".data ∧
    phAfter ⟨"x[+Akk.]y".data, false, false⟩ "etw.".data "+Akk.]y".data =
      .cont ⟨"y".data, false, false⟩ [.placeholder (.thing (some .accusative))] ∧
    phAfter ⟨"sich [".data, false, false⟩ "sich".data [] = .fail .unfinishedPh ∧
    phStep ⟨" x".data, true, false⟩ "sich".data =
      .cont ⟨" x".data, true, false⟩ [.placeholder (.reflexive none)] ∧
    phAfter ⟨"etw. [Nom.ä]".data, false, false⟩ "etw.".data "Nom.ä]".data = .panick := by
  obtain ⟨e0, e1, e2, e3, e4, a0, a1, a2, a3, a4, a5⟩ := c6_lookahead_amended
  refine ⟨e2 _ _ "+Akk.]y".data 'x' rfl (by decide) (by decide), ?_, a0 _ _, ?_, ?_⟩
  · have h := a1 ⟨"x[+Akk.]y".data, false, false⟩ "etw.".data "+Akk.]y".data
      "Akk.]y".data "y".data Case.accusative rfl (by decide) (by decide) rfl rfl
    simpa [phKind] using h
  · have h := e3 ⟨" x".data, true, false⟩ "sich".data (by decide) (by decide)
    simpa [phKind] using h
  · exact a4 ⟨"etw. [Nom.ä]".data, false, false⟩ "etw.".data "Nom.ä]".data
      "Nom.ä]".data "]".data Case.nominative 'ä' rfl (by decide) (by decide) rfl rfl
      (by decide)

end DictCC

namespace DictCC

theorem splitAtSpecial_none_clean {p : Char → Bool} :
    ∀ {l : List Char}, splitAtSpecial p l = none → ∀ x ∈ l, p x = false := by
  intro l
  induction l with
  | nil => intro _ x hx; simp at hx
  | cons a as ih =>
    intro h x hx
    by_cases hp : p a
    · simp [splitAtSpecial, hp] at h
    · simp only [splitAtSpecial, hp, Bool.false_eq_true, if_false] at h
      cases hs : splitAtSpecial p as with
      | none =>
        rcases List.mem_cons.mp hx with rfl | hx
        · simpa using hp
        · exact ih hs x hx
      | some t => obtain ⟨u, v, z⟩ := t; rw [hs] at h; simp at h

theorem prepend_ok_elim {r : POut} {em ps : List Part} {l : List Char}
    (h : r.prepend em = .ok ps l) : ∃ qs, r = .ok qs l ∧ ps = em ++ qs := by
  cases r with
  | ok a b =>
    simp only [POut.prepend, POut.ok.injEq] at h
    exact ⟨a, by rw [h.2], h.1.symm⟩
  | err e => simp [POut.prepend] at h
  | panicked => simp [POut.prepend] at h
  | fuelOut => simp [POut.prepend] at h

theorem charsOkC9_mem {x : List Char} (h : charsOkC9 x = true) {c : Char}
    (hm : c ∈ x) : ¬ (c = '(' ∨ c = ')' ∨ c = '[' ∨ c = '<' ∨ c = '{') := by
  have := (List.all_eq_true.mp h) c hm
  simpa using this

theorem plainChar_of {c : Char} (h1 : isSpecial c = false)
    (h2 : ¬ (c = '(' ∨ c = ')' ∨ c = '[' ∨ c = '<' ∨ c = '{')) :
    plainChar c = true := by
  simp [isSpecial] at h1
  simp [plainChar]
  tauto

/-- Core of amended claim C9: a string with none of the five bracketing
characters that parses successfully at the top level parses identically
inside a parenthesized group, leaving the closing parenthesis's
remainder untouched. -/
theorem c9Aux : ∀ (n : Nat) (x : List Char), x.length ≤ n → charsOkC9 x = true →
    ∀ px, parseRun x false false = .ok px [] →
      parseRun (x ++ [')']) true false = .ok px [] := by
  intro n
  induction n with
  | zero =>
    intro x hlen _ px hx
    have hx0 : x = [] := List.eq_nil_of_length_eq_zero (Nat.le_zero.mp hlen)
    subst hx0
    rw [parseRun_nil_top] at hx
    injection hx with h1 h2
    subst h1
    exact parseRun_close []
  | succ n ih =>
    intro x hlen hok px hx
    cases hsplit : splitAtSpecial isSpecial x with
    | none =>
      rcases List.eq_nil_or_concat x with rfl | hne2
      · rw [parseRun_nil_top] at hx
        injection hx with h1 h2
        subst h1
        exact parseRun_close []
      · have hne : x ≠ [] := by rcases hne2 with ⟨a, b, rfl⟩; simp
        have hpl : ∀ c ∈ x, plainChar c = true := fun c hm =>
          plainChar_of (splitAtSpecial_none_clean hsplit c hm) (charsOkC9_mem hok hm)
        cases hwe : wordEmit x with
        | some em =>
          rw [run_word_end x em hne hpl (.inl hwe)] at hx
          injection hx with h1 h2
          subst h1
          exact run_word_close x [] em hne hpl (.inl hwe)
        | none =>
          rw [run_word_end x _ hne hpl (.inr ⟨hwe, rfl⟩)] at hx
          injection hx with h1 h2
          subst h1
          exact run_word_close x [] _ hne hpl (.inr ⟨hwe, rfl, by simp⟩)
    | some t =>
      obtain ⟨w, c, post⟩ := t
      obtain ⟨hx2, hcsp, hclean⟩ := splitAtSpecial_some hsplit
      subst hx2
      have hcm : c ∈ w ++ c :: post := by simp
      have hcok := charsOkC9_mem hok hcm
      have hcsp2 : c = '/' ∨ c = ' ' := by
        simp [isSpecial] at hcsp
        tauto
      have hokpost : charsOkC9 post = true := by
        simp [charsOkC9] at hok ⊢
        exact hok.2.2
      have hplw : ∀ y ∈ w, plainChar y = true := fun y hm =>
        plainChar_of (hclean y hm)
          (charsOkC9_mem hok (List.mem_append_left _ hm))
      have hbrpost : '[' ∉ post := fun hm =>
        (charsOkC9_mem hok
          (List.mem_append_right _ (List.mem_cons_of_mem _ hm))) (by simp)
      cases hw : w with
      | nil =>
        subst hw
        rcases hcsp2 with rfl | rfl
        · -- leading slash
          rw [List.nil_append] at hx ⊢
          rw [parseRun_slash] at hx
          obtain ⟨ps2, hpost, hpx⟩ := prepend_ok_elim hx
          subst hpx
          have hlen2 : post.length ≤ n := by
            simp at hlen
            omega
          have hnest := ih post hlen2 hokpost ps2 hpost
          show parseRun ('/' :: (post ++ [')'])) true false = _
          rw [parseRun_slash, hnest]
          rfl
        · -- leading space
          rw [List.nil_append] at hx ⊢
          rw [parseRun_space] at hx
          have hlen2 : post.length ≤ n := by
            simp at hlen
            omega
          have hnest := ih post hlen2 hokpost px hx
          show parseRun (' ' :: (post ++ [')'])) true false = _
          rw [parseRun_space, hnest]
      | cons w0 ws =>
        have hwne : w ≠ [] := by rw [hw]; simp
        have hlenw : 1 ≤ w.length := by
          rw [hw]
          simp
        have hem : ∀ em, wordEmit w = some em ∨
            (wordEmit w = none ∧ em = [.placeholder (phKind w none)]) →
            parseRun (w ++ c :: post ++ [')']) true false = .ok px [] := by
          intro em hwe
          rcases hcsp2 with rfl | rfl
          · -- word then slash
            rw [run_word_slash w post em false hwne hplw
              (hwe.imp id fun ⟨h1, h2⟩ => ⟨h1, h2, fun hm =>
                hbrpost (List.mem_of_mem_take hm)⟩)] at hx
            obtain ⟨ps2, hpost, hpx⟩ := prepend_ok_elim hx
            subst hpx
            have hok2 : charsOkC9 ('/' :: post) = true := by
              simp only [charsOkC9, List.all_cons, Bool.and_eq_true]
              exact ⟨by decide, hokpost⟩
            have hlen2 : ('/' :: post).length ≤ n := by
              simp at hlen ⊢
              omega
            have hnest := ih ('/' :: post) hlen2 hok2 ps2 hpost
            have hre : w ++ '/' :: post ++ [')'] = w ++ '/' :: (post ++ [')']) := by
              simp
            rw [hre]
            rw [run_word_slash w (post ++ [')']) em true hwne hplw
              (hwe.imp id fun ⟨h1, h2⟩ => ⟨h1, h2, fun hm => by
                rcases post with _ | ⟨a, post'⟩
                · simp [List.take] at hm
                · simp [List.take] at hm
                  subst hm
                  exact hbrpost (List.mem_cons_self _ _)⟩)]
            have hre2 : ('/' :: post) ++ [')'] = '/' :: (post ++ [')']) := by simp
            rw [hre2] at hnest
            rw [hnest]
            simp [POut.prepend]
          · -- word then space
            rw [run_word_space w post em false hwne hplw
              (hwe.imp id fun ⟨h1, h2⟩ => ⟨h1, h2, fun hm =>
                hbrpost (List.mem_of_mem_take hm), .inr rfl⟩)] at hx
            obtain ⟨ps2, hpost, hpx⟩ := prepend_ok_elim hx
            subst hpx
            have hlen2 : post.length ≤ n := by
              simp at hlen
              omega
            have hnest := ih post hlen2 hokpost ps2 hpost
            have hre : w ++ ' ' :: post ++ [')'] = w ++ ' ' :: (post ++ [')']) := by
              simp
            rw [hre]
            rw [run_word_space w (post ++ [')']) em true hwne hplw
              (hwe.imp id fun ⟨h1, h2⟩ => ⟨h1, h2, fun hm => by
                have := List.mem_of_mem_take hm
                rcases List.mem_append.mp this with hm2 | hm2
                · exact hbrpost hm2
                · simp at hm2, .inl (by simp)⟩)]
            rw [hnest]
            rfl
        rw [← hw]
        cases hwe : wordEmit w with
        | some em => exact hem em (.inl hwe)
        | none => exact hem _ (.inr ⟨hwe, rfl⟩)

end DictCC

namespace DictCC

/-- C9 (amended): for every string `x` that parses successfully on its
own and contains none of the characters `(`, `)`, `[`, `<`, `{`,
parsing `"(" ++ x ++ ")"` succeeds and yields exactly the one-part
sequence `[Extra(parse x)]`. -/
theorem c9_group_amended (x : List Char) (px : List Part)
    (hc : charsOkC9 x = true) (hx : parse x = .ok px []) :
    parse ('(' :: (x ++ [')'])) = .ok [.extra px] [] := by
  have hnest : parseRun (x ++ [')']) true false = .ok px [] :=
    c9Aux x.length x le_rfl hc px hx
  show parseRun ('(' :: (x ++ [')'])) false false = _
  rw [parseRun_extra (stepBase_open (x ++ [')']) false), hnest]
  show (parseRun [] false false).prepend [.extra px] = _
  rw [parseRun_nil_top]
  simp [POut.prepend]

theorem c9_group_amended_witness :
    charsOkC9 "jd. sagt/meint etw.".data = true ∧
    parse "jd. sagt/meint etw.".data =
      .ok [.placeholder (.person .nominative), .keyword "sagt".data,
        .variantSeparator, .keyword "meint".data,
        .placeholder (.thing none)] [] ∧
    parse "(jd. sagt/meint etw.)".data =
      .ok [.extra [.placeholder (.person .nominative), .keyword "sagt".data,
        .variantSeparator, .keyword "meint".data,
        .placeholder (.thing none)]] [] := by
  refine ⟨by decide, rfl, ?_⟩
  have h := c9_group_amended "jd. sagt/meint etw.".data
    [.placeholder (.person .nominative), .keyword "sagt".data,
      .variantSeparator, .keyword "meint".data,
      .placeholder (.thing none)] (by decide) rfl
  simpa using h

end DictCC

namespace DictCC

/-! ## Facts about tame parts and their rendered pieces -/

theorem tame_split {p : Part} {ps : List Part} (h : tameL (p :: ps) = true) :
    tameP p = true ∧ tameL ps = true := by
  simpa [tameL, Bool.and_eq_true] using h

theorem rend_cons_some {p : Part} {w : List Char} (ps : List Part)
    (hro : renderOpt p = some w) : rend (p :: ps) = w :: rend ps := by
  simp [rend, hro]

theorem rend_cons_none {p : Part} (ps : List Part)
    (hro : renderOpt p = none) : rend (p :: ps) = rend ps := by
  simp [rend, hro]

theorem rend_append (a b : List Part) : rend (a ++ b) = rend a ++ rend b := by
  simp [rend]

theorem ph_render_ne (ph : Ph) : ph.render ≠ [] := by
  cases ph with
  | thing c => cases c <;> simp [Ph.render]
  | reflexive c => cases c <;> simp [Ph.render]
  | person c => cases c <;> simp [Ph.render]

theorem tame_rend_nonempty : ∀ {ps : List Part}, tameL ps = true →
    ∀ w ∈ rend ps, w ≠ [] := by
  intro ps
  induction ps with
  | nil => intro _ w hm; simp [rend] at hm
  | cons p ps ih =>
    intro ht w hm
    obtain ⟨htp, hts⟩ := tame_split ht
    cases hro : renderOpt p with
    | none =>
      rw [rend_cons_none ps hro] at hm
      exact ih hts w hm
    | some w0 =>
      rw [rend_cons_some ps hro] at hm
      rcases List.mem_cons.mp hm with rfl | hm2
      · cases p with
        | keyword k =>
          have hk : k = w := by simpa [renderOpt] using hro
          subst hk
          simp [tameP] at htp
          intro hnil
          rw [hnil] at htp
          simp at htp
        | placeholder ph =>
          have hk : ph.render = w := by simpa [renderOpt] using hro
          rw [← hk]
          exact ph_render_ne ph
        | variantSeparator => simp [renderOpt] at hro; simp [← hro]
        | gender g =>
          have hk : g.render = w := by simpa [renderOpt] using hro
          rw [← hk]
          cases g <;> simp [Gender.render]
        | ann k v =>
          cases k with
          | number => simp [tameP] at htp
          | explanation => simp [renderOpt] at hro
          | alternative => simp [renderOpt] at hro
        | extra qs =>
          have hk : '(' :: (renderList qs ++ [')']) = w := by
            simpa [renderOpt] using hro
          rw [← hk]
          simp
      · exact ih hts w hm2

theorem wordEmit_of_not_reserved {w : List Char}
    (h : reservedWords.contains w = false) :
    wordEmit w = some [.keyword w] := by
  simp [reservedWords] at h
  obtain ⟨h1, h2, h3, h4, h5, h6⟩ := h
  simp [wordEmit, h1, h2, h3, h4, h5, h6]

theorem person_word (c : Case) : (Ph.person c).render ≠ [] ∧
    (∀ x ∈ (Ph.person c).render, plainChar x = true) ∧
    wordEmit (Ph.person c).render = some [.keyword (Ph.person c).render] := by
  cases c <;> exact ⟨by decide, by decide, rfl⟩

theorem gender_word (g : Gender) : g.render ≠ [] ∧
    (∀ x ∈ g.render, plainChar x = true) ∧
    wordEmit g.render = some [.keyword g.render] := by
  cases g <;> exact ⟨by decide, by decide, rfl⟩

theorem etw_word : (Ph.thing none).render ≠ [] ∧
    (∀ x ∈ (Ph.thing none).render, plainChar x = true) ∧
    wordEmit (Ph.thing none).render = some [.keyword (Ph.thing none).render] :=
  ⟨by decide, by decide, rfl⟩

theorem sich_word : (Ph.reflexive none).render = "sich".data ∧
    "sich".data ≠ ([] : List Char) ∧
    (∀ x ∈ "sich".data, plainChar x = true) ∧
    wordEmit "sich".data = none ∧
    phKind "sich".data none = Ph.reflexive none :=
  ⟨rfl, by decide, by decide, rfl, rfl⟩

theorem endsSlash_false_of_plain {w : List Char} (_hne : w ≠ [])
    (hpl : ∀ x ∈ w, plainChar x = true) : endsSlash w = false := by
  cases hlast : w.getLast? with
  | none => simp [endsSlash, hlast]
  | some c =>
    have hopt : c ∈ w.getLast? := by simp [hlast]
    obtain ⟨hne2, hceq⟩ := List.mem_getLast?_eq_getLast hopt
    have hcm : c ∈ w := hceq ▸ List.getLast_mem hne2
    have hc := hpl c hcm
    simp [plainChar] at hc
    simpa [endsSlash, hlast] using hc.2.2.2.2.2.1

theorem endsSlash_extra (L : List Char) :
    endsSlash ('(' :: (L ++ [')'])) = false := by
  rw [← List.cons_append, endsSlash]
  rw [List.getLast?_concat]
  rfl

theorem endsSlash_vs : endsSlash ['/'] = true := rfl

theorem glue_false_cases (w2 : List Char) (ws : List (List Char)) :
    glueFrom false (w2 :: ws) = ' ' :: glueFrom true (w2 :: ws) ∨
    (w2 = ['/'] ∧ glueFrom false (w2 :: ws) = glueFrom true (w2 :: ws)) := by
  by_cases h : w2 = ['/']
  · exact .inr ⟨h, by simp [glueFrom, sepC, h]⟩
  · exact .inl (by simp [glueFrom, sepC, h])

theorem glue_nil (σ : Bool) : glueFrom σ [] = [] := rfl

end DictCC

namespace DictCC

/-- The canonical rendering of a tame part list never contains an
opening bracket, so the placeholder lookahead always soft-resets inside
such a rendering. -/
theorem noBr : ∀ (n : Nat) (ps : List Part), sizeOf ps ≤ n → tameL ps = true →
    ∀ σ, '[' ∉ glueFrom σ (rend ps) := by
  intro n
  induction n with
  | zero =>
    intro ps hsz _ _
    exact absurd hsz (by cases ps <;> simp_arith)
  | succ n ih =>
    intro ps hsz ht σ
    cases ps with
    | nil => simp [rend, glueFrom]
    | cons p ps2 =>
      obtain ⟨htp, hts⟩ := tame_split ht
      have hsz2 : sizeOf ps2 ≤ n := by simp_arith at hsz; omega
      cases hro : renderOpt p with
      | none =>
        rw [rend_cons_none ps2 hro]
        exact ih ps2 hsz2 hts σ
      | some w =>
        rw [rend_cons_some ps2 hro]
        intro hm
        rw [show glueFrom σ (w :: rend ps2) =
          sepC σ w ++ w ++ glueFrom (endsSlash w) (rend ps2) from rfl] at hm
        rcases List.mem_append.mp hm with hm1 | hm3
        · rcases List.mem_append.mp hm1 with hm0 | hm2
          · unfold sepC at hm0
            split_ifs at hm0 <;> simp at hm0
          · -- the bracket would have to sit inside the rendered piece
            cases p with
            | keyword k =>
              have hk : k = w := by simpa [renderOpt] using hro
              subst hk
              simp [tameP, Bool.and_eq_true] at htp
              exact absurd (htp.1.2 _ hm2) (by decide)
            | placeholder ph =>
              have hk : ph.render = w := by simpa [renderOpt] using hro
              rw [← hk] at hm2
              cases ph with
              | person c => cases c <;> revert hm2 <;> decide
              | thing c =>
                cases c with
                | none => revert hm2; decide
                | some c2 => simp [tameP] at htp
              | reflexive c =>
                cases c with
                | none => revert hm2; decide
                | some c2 => simp [tameP] at htp
            | variantSeparator =>
              have hk : ['/'] = w := by simpa [renderOpt] using hro
              rw [← hk] at hm2
              simp at hm2
            | gender g =>
              have hk : g.render = w := by simpa [renderOpt] using hro
              rw [← hk] at hm2
              cases g <;> revert hm2 <;> decide
            | ann k v =>
              cases k with
              | number => simp [tameP] at htp
              | explanation => simp [renderOpt] at hro
              | alternative => simp [renderOpt] at hro
            | extra qs =>
              have hk : '(' :: (renderList qs ++ [')']) = w := by
                simpa [renderOpt] using hro
              rw [← hk] at hm2
              have htq : tameL qs = true := by simpa [tameP] using htp
              have hsq : sizeOf qs ≤ n := by simp_arith at hsz; omega
              have hrl : renderList qs = glueFrom true (rend qs) :=
                renderList_glue qs (tame_rend_nonempty htq)
              rcases List.mem_cons.mp hm2 with hpar | hm4
              · simp at hpar
              · rcases List.mem_append.mp hm4 with hm5 | hm6
                · rw [hrl] at hm5
                  exact ih qs hsq htq true hm5
                · simp at hm6
        · exact ih ps2 hsz2 hts (endsSlash w) hm3

end DictCC

namespace DictCC

theorem renderList_eq_of_rend {a b : List Part} (h : rend a = rend b) :
    renderList a = renderList b := by
  unfold renderList
  rw [renderAux_eq_fold, renderAux_eq_fold,
    show (a.filterMap renderOpt) = rend a from rfl,
    show (b.filterMap renderOpt) = rend b from rfl, h]

/-- One plain word piece at the head of a glued rendering: the word is
consumed together with the following separator (or the closing
parenthesis, or the end of input) and contributes its emission before the
continuation's parts. -/
theorem word_piece_run (w : List Char) (em : List Part)
    (hwne : w ≠ []) (hwpl : ∀ x ∈ w, plainChar x = true)
    (hemOK : wordEmit w = some em ∨
      (wordEmit w = none ∧ em = [.placeholder (phKind w none)]))
    (ws : List (List Char)) (stop : Bool) (close tail : List Char)
    (hclose : (stop = true ∧ close = ')' :: tail ∧ '[' ∉ tail) ∨
      (stop = false ∧ close = [] ∧ tail = []))
    (hbrG : '[' ∉ glueFrom true ws) (hbrC : '[' ∉ close)
    (qs' : List Part)
    (hcont : parseRun (glueFrom true ws ++ close) stop false = .ok qs' tail) :
    parseRun ((w ++ glueFrom false ws) ++ close) stop false = .ok (em ++ qs') tail := by
  cases ws with
  | nil =>
    have hinp : (w ++ glueFrom false []) ++ close = w ++ close := by
      simp [glueFrom]
    rw [hinp]
    rcases hclose with ⟨rfl, rfl, hbrt⟩ | ⟨rfl, rfl, rfl⟩
    · have hq : qs' = [] := by
        rw [show glueFrom true ([] : List (List Char)) ++ ')' :: tail = ')' :: tail
          from rfl, parseRun_close] at hcont
        injection hcont with h1 h2
        exact h1.symm
      subst hq
      have hem2 : wordEmit w = some em ∨
          (wordEmit w = none ∧ em = [.placeholder (phKind w none)] ∧
            '[' ∉ tail.take 2) :=
        hemOK.imp id fun ⟨a, b⟩ => ⟨a, b, fun hm => hbrt (List.mem_of_mem_take hm)⟩
      have h := run_word_close w tail em hwne hwpl hem2
      simpa using h
    · have hq : qs' = [] := by
        rw [show glueFrom true ([] : List (List Char)) ++ ([] : List Char) = []
          from rfl, parseRun_nil_top] at hcont
        injection hcont with h1 h2
        exact h1.symm
      subst hq
      have h := run_word_end w em hwne hwpl hemOK
      simpa using h
  | cons w2 ws2 =>
    rcases glue_false_cases w2 ws2 with hgf | ⟨hw2, hgf⟩
    · have hinp : (w ++ glueFrom false (w2 :: ws2)) ++ close =
          w ++ ' ' :: (glueFrom true (w2 :: ws2) ++ close) := by
        rw [hgf]
        simp
      rw [hinp]
      have hem2 : wordEmit w = some em ∨
          (wordEmit w = none ∧ em = [.placeholder (phKind w none)] ∧
            '[' ∉ (glueFrom true (w2 :: ws2) ++ close).take 2 ∧
            (glueFrom true (w2 :: ws2) ++ close ≠ [] ∨ stop = false)) := by
        refine hemOK.imp id fun ⟨a, b⟩ => ⟨a, b, ?_, ?_⟩
        · intro hm
          rcases List.mem_append.mp (List.mem_of_mem_take hm) with h | h
          · exact hbrG h
          · exact hbrC h
        · rcases hclose with ⟨hst, rfl, _⟩ | ⟨hst, _, _⟩
          · exact .inl (by simp)
          · exact .inr hst
      rw [run_word_space w (glueFrom true (w2 :: ws2) ++ close) em stop hwne hwpl hem2,
        hcont]
      rfl
    · have hbrG2 : '[' ∉ glueFrom true ws2 := by
        intro hm
        apply hbrG
        subst hw2
        show '[' ∈ sepC true ['/'] ++ ['/'] ++ glueFrom (endsSlash ['/']) ws2
        simp [sepC, endsSlash]
        simpa using hm
      have hinp : (w ++ glueFrom false (w2 :: ws2)) ++ close =
          w ++ '/' :: (glueFrom true ws2 ++ close) := by
        rw [hgf]
        subst hw2
        show (w ++ (sepC true ['/'] ++ ['/'] ++ glueFrom (endsSlash ['/']) ws2)) ++
          close = _
        simp [sepC, endsSlash]
      rw [hinp]
      have hem2 : wordEmit w = some em ∨
          (wordEmit w = none ∧ em = [.placeholder (phKind w none)] ∧
            '[' ∉ (glueFrom true ws2 ++ close).take 1) := by
        refine hemOK.imp id fun ⟨a, b⟩ => ⟨a, b, ?_⟩
        intro hm
        rcases List.mem_append.mp (List.mem_of_mem_take hm) with h | h
        · exact hbrG2 h
        · exact hbrC h
      rw [run_word_slash w (glueFrom true ws2 ++ close) em stop hwne hwpl hem2]
      have hX : ('/' : Char) :: (glueFrom true ws2 ++ close) =
          glueFrom true (w2 :: ws2) ++ close := by
        subst hw2
        show _ = (sepC true ['/'] ++ ['/'] ++ glueFrom (endsSlash ['/']) ws2) ++ close
        simp [sepC, endsSlash]
      rw [hX, hcont]
      rfl

/-- The leading separator of a glued rendering is transparent to the
parser: a space is skipped and an empty separator changes nothing. -/
theorem glue_sep_run (σ : Bool) (w : List Char) (ws : List (List Char))
    (stop : Bool) (close tail : List Char) (qs : List Part)
    (h : parseRun ((w ++ glueFrom (endsSlash w) ws) ++ close) stop false = .ok qs tail) :
    parseRun (glueFrom σ (w :: ws) ++ close) stop false = .ok qs tail := by
  by_cases hσ : ¬ σ = true ∧ w ≠ ['/']
  · have hsep : sepC σ w = [' '] := by simp [sepC, hσ.1, hσ.2]
    have hinp : glueFrom σ (w :: ws) ++ close =
        ' ' :: ((w ++ glueFrom (endsSlash w) ws) ++ close) := by
      show (sepC σ w ++ w ++ glueFrom (endsSlash w) ws) ++ close = _
      rw [hsep]
      simp
    rw [hinp, parseRun_space]
    exact h
  · have hsep : sepC σ w = [] := by
      unfold sepC
      rw [if_neg hσ]
    have hinp : glueFrom σ (w :: ws) ++ close =
        (w ++ glueFrom (endsSlash w) ws) ++ close := by
      show (sepC σ w ++ w ++ glueFrom (endsSlash w) ws) ++ close = _
      rw [hsep]
      simp
    rw [hinp]
    exact h

/-- Packaging of one word piece for the round-trip induction: rendered
piece, emitted parts, and the continuation supplied by the induction
hypothesis combine to the full parse result. -/
theorem word_case_full (w : List Char) (em : List Part)
    (hwne : w ≠ []) (hwpl : ∀ x ∈ w, plainChar x = true)
    (hemOK : wordEmit w = some em ∨
      (wordEmit w = none ∧ em = [.placeholder (phKind w none)]))
    (hrem : rend em = [w]) (hngem : noGenderL em = true)
    (ps' : List Part) (σ stop : Bool) (close tail : List Char)
    (hclose : (stop = true ∧ close = ')' :: tail ∧ '[' ∉ tail) ∨
      (stop = false ∧ close = [] ∧ tail = []))
    (hbrG : '[' ∉ glueFrom true (rend ps'))
    (IH : ∃ qs', rend qs' = rend ps' ∧ noGenderL qs' = true ∧
      parseRun (glueFrom true (rend ps') ++ close) stop false = .ok qs' tail) :
    ∃ qs, rend qs = w :: rend ps' ∧ noGenderL qs = true ∧
      parseRun (glueFrom σ (w :: rend ps') ++ close) stop false = .ok qs tail := by
  obtain ⟨qs', h1, h2, hcont⟩ := IH
  have hbrC : '[' ∉ close := by
    rcases hclose with ⟨_, rfl, hbrt⟩ | ⟨_, rfl, _⟩
    · intro hm
      rcases List.mem_cons.mp hm with h | h
      · simp at h
      · exact hbrt h
    · simp
  refine ⟨em ++ qs', ?_, ?_, ?_⟩
  · rw [rend_append, hrem, h1]
    rfl
  · simp only [noGenderL, List.all_append, Bool.and_eq_true]
    exact ⟨hngem, h2⟩
  · apply glue_sep_run
    rw [endsSlash_false_of_plain hwne hwpl]
    exact word_piece_run w em hwne hwpl hemOK (rend ps') stop close tail hclose
      hbrG hbrC qs' hcont

end DictCC

namespace DictCC

/-- The round-trip induction: the glued rendering of a tame part list,
followed by a closing parenthesis (inside a group) or by nothing (at the
top level), re-parses to a part list with the same rendered pieces and
no gender parts. -/
theorem parseGlueAux : ∀ (n : Nat) (ps : List Part), sizeOf ps ≤ n → tameL ps = true →
    ∀ (σ stop : Bool) (close tail : List Char),
      ((stop = true ∧ close = ')' :: tail ∧ '[' ∉ tail) ∨
       (stop = false ∧ close = [] ∧ tail = [])) →
      ∃ qs, rend qs = rend ps ∧ noGenderL qs = true ∧
        parseRun (glueFrom σ (rend ps) ++ close) stop false = .ok qs tail := by
  intro n
  induction n with
  | zero =>
    intro ps hsz
    exact absurd hsz (by cases ps <;> simp_arith)
  | succ n ih =>
    intro ps hsz ht σ stop close tail hclose
    cases ps with
    | nil =>
      refine ⟨[], rfl, rfl, ?_⟩
      rcases hclose with ⟨rfl, rfl, _⟩ | ⟨rfl, rfl, rfl⟩
      · show parseRun (')' :: tail) true false = .ok [] tail
        exact parseRun_close tail
      · show parseRun [] false false = .ok [] []
        exact parseRun_nil_top
    | cons p ps2 =>
      obtain ⟨htp, hts⟩ := tame_split ht
      have hsz2 : sizeOf ps2 ≤ n := by simp_arith at hsz; omega
      have hbrG : '[' ∉ glueFrom true (rend ps2) := noBr (sizeOf ps2) ps2 le_rfl hts true
      cases p with
      | ann k v =>
        cases k with
        | number => simp [tameP] at htp
        | explanation =>
          rw [rend_cons_none ps2 (show renderOpt (Part.ann .explanation v) = none
            from by simp [renderOpt])]
          exact ih ps2 hsz2 hts σ stop close tail hclose
        | alternative =>
          rw [rend_cons_none ps2 (show renderOpt (Part.ann .alternative v) = none
            from by simp [renderOpt])]
          exact ih ps2 hsz2 hts σ stop close tail hclose
      | keyword k =>
        have htp2 : (!k.isEmpty && k.all plainChar &&
            !(reservedWords.contains k)) = true := by
          simpa [tameP] using htp
        rw [Bool.and_eq_true, Bool.and_eq_true] at htp2
        have hwne : k ≠ [] := by simpa using htp2.1.1
        have hpl : ∀ x ∈ k, plainChar x = true := by simpa using htp2.1.2
        have hres : reservedWords.contains k = false := by simpa using htp2.2
        rw [rend_cons_some ps2 (show renderOpt (Part.keyword k) = some k
          from by simp [renderOpt])]
        exact word_case_full k [.keyword k] hwne hpl
          (.inl (wordEmit_of_not_reserved hres)) (by simp [rend, renderOpt]) rfl
          ps2 σ stop close tail hclose hbrG
          (ih ps2 hsz2 hts true stop close tail hclose)
      | placeholder ph =>
        cases ph with
        | person c =>
          obtain ⟨hne, hpl, hwe⟩ := person_word c
          rw [rend_cons_some ps2 (show renderOpt (Part.placeholder (Ph.person c)) =
            some (Ph.person c).render from by simp [renderOpt])]
          exact word_case_full _ [.keyword (Ph.person c).render] hne hpl (.inl hwe)
            (by simp [rend, renderOpt]) rfl ps2 σ stop close tail hclose hbrG
            (ih ps2 hsz2 hts true stop close tail hclose)
        | thing c =>
          cases c with
          | some c2 => simp [tameP] at htp
          | none =>
            obtain ⟨hne, hpl, hwe⟩ := etw_word
            rw [rend_cons_some ps2 (show renderOpt (Part.placeholder (Ph.thing none)) =
              some (Ph.thing none).render from by simp [renderOpt])]
            exact word_case_full _ [.keyword (Ph.thing none).render] hne hpl
              (.inl hwe) (by simp [rend, renderOpt]) rfl ps2 σ stop close tail
              hclose hbrG (ih ps2 hsz2 hts true stop close tail hclose)
        | reflexive c =>
          cases c with
          | some c2 => simp [tameP] at htp
          | none =>
            rw [rend_cons_some ps2
              (show renderOpt (Part.placeholder (Ph.reflexive none)) =
                some "sich".data from by simp [renderOpt, Ph.render])]
            exact word_case_full "sich".data [.placeholder (.reflexive none)]
              (by decide) (by decide) (.inr ⟨rfl, rfl⟩)
              (by simp [rend, renderOpt, Ph.render]) rfl ps2 σ stop close
              tail hclose hbrG (ih ps2 hsz2 hts true stop close tail hclose)
      | gender g =>
        obtain ⟨hne, hpl, hwe⟩ := gender_word g
        rw [rend_cons_some ps2 (show renderOpt (Part.gender g) = some g.render
          from by simp [renderOpt])]
        exact word_case_full _ [.keyword g.render] hne hpl (.inl hwe)
          (by simp [rend, renderOpt]) rfl ps2 σ stop close tail hclose hbrG
          (ih ps2 hsz2 hts true stop close tail hclose)
      | variantSeparator =>
        rw [rend_cons_some ps2 (show renderOpt Part.variantSeparator = some ['/']
          from by simp [renderOpt])]
        obtain ⟨qs', h1, h2, hcont⟩ := ih ps2 hsz2 hts true stop close tail hclose
        refine ⟨.variantSeparator :: qs', ?_, ?_, ?_⟩
        · rw [rend_cons_some qs' (show renderOpt Part.variantSeparator = some ['/']
            from by simp [renderOpt]), h1]
        · simp only [noGenderL, List.all_cons, Bool.and_eq_true]
          exact ⟨rfl, h2⟩
        · apply glue_sep_run
          show parseRun ('/' :: (glueFrom true (rend ps2) ++ close)) stop false = _
          rw [parseRun_slash, hcont]
          rfl
      | extra qs2 =>
        have htq : tameL qs2 = true := by simpa [tameP] using htp
        have hsq : sizeOf qs2 ≤ n := by simp_arith at hsz; omega
        have hrl : renderList qs2 = glueFrom true (rend qs2) :=
          renderList_glue qs2 (tame_rend_nonempty htq)
        rw [rend_cons_some ps2 (show renderOpt (Part.extra qs2) =
          some ('(' :: (renderList qs2 ++ [')'])) from by simp [renderOpt])]
        obtain ⟨qs', h1, h2, hcont⟩ := ih ps2 hsz2 hts false stop close tail hclose
        have hbrC : '[' ∉ close := by
          rcases hclose with ⟨_, rfl, hbrt⟩ | ⟨_, rfl, _⟩
          · intro hm
            rcases List.mem_cons.mp hm with h | h
            · simp at h
            · exact hbrt h
          · simp
        have hbrR : '[' ∉ glueFrom false (rend ps2) ++ close := by
          intro hm
          rcases List.mem_append.mp hm with h | h
          · exact noBr (sizeOf ps2) ps2 le_rfl hts false h
          · exact hbrC h
        obtain ⟨qs2n, h1n, h2n, hnest⟩ := ih qs2 hsq htq true true
          (')' :: (glueFrom false (rend ps2) ++ close))
          (glueFrom false (rend ps2) ++ close) (.inl ⟨rfl, rfl, hbrR⟩)
        refine ⟨.extra qs2n :: qs', ?_, ?_, ?_⟩
        · rw [rend_cons_some qs' (show renderOpt (Part.extra qs2n) =
            some ('(' :: (renderList qs2n ++ [')'])) from by simp [renderOpt]),
            h1, renderList_eq_of_rend h1n]
        · simp only [noGenderL, List.all_cons, Bool.and_eq_true]
          exact ⟨rfl, h2⟩
        · apply glue_sep_run
          rw [endsSlash_extra (renderList qs2)]
          have hinp : (('(' :: (renderList qs2 ++ [')'])) ++
              glueFrom false (rend ps2)) ++ close =
              '(' :: (glueFrom true (rend qs2) ++
                ')' :: (glueFrom false (rend ps2) ++ close)) := by
            rw [hrl]
            simp
          rw [hinp]
          rw [parseRun_extra (stepBase_open _ stop), hnest]
          show (parseRun (glueFrom false (rend ps2) ++ close) stop false).prepend
            [.extra qs2n] = _
          rw [hcont]
          rfl

end DictCC

namespace DictCC

theorem tameL_eq_all : ∀ l : List Part, tameL l = l.all tameP := by
  intro l
  induction l with
  | nil => simp [tameL]
  | cons p ps ih => simp [tameL, ih]

theorem tame_displaySort {ps : List Part} (h : tameL ps = true) :
    tameL (displaySort ps) = true := by
  rw [tameL_eq_all] at h ⊢
  rw [displaySort_eq]
  rw [List.all_eq_true] at h ⊢
  intro p hp
  rcases List.mem_append.mp hp with hm | hm
  · exact h p (List.mem_filter.mp (List.mem_reverse.mp hm)).1
  · exact h p (List.mem_filter.mp hm).1

theorem displaySort_of_noGender {qs : List Part} (h : noGenderL qs = true) :
    displaySort qs = qs := by
  rw [displaySort_eq]
  have hfil : qs.filter isGenderP = [] := by
    rw [List.filter_eq_nil_iff]
    intro a ha
    have h2 := (List.all_eq_true.mp h) a ha
    simp at h2
    simp [h2]
  have hfil2 : (qs.filter fun p => ! isGenderP p) = qs := by
    rw [List.filter_eq_self]
    intro a ha
    exact (List.all_eq_true.mp h) a ha
  rw [hfil, hfil2]
  rfl

/-- C3 (amended): for every tame term — keywords of plain non-reserved
text, person placeholders, case-less thing/reflexive placeholders,
variant separators, gender parts, Explanation/Alternative annotations
and nested groups of such parts — the canonical rendering is a fixed
point of parse-then-render: the rendering parses successfully, consuming
all input, and the parsed term renders back to the same string. -/
theorem c3_roundtrip_amended (t : Term) (h : tameL t.parts = true) :
    ∃ qs, parse (Term.display t) = .ok qs [] ∧ display qs = Term.display t := by
  have hds : tameL (displaySort t.parts) = true := tame_displaySort h
  have hglue : Term.display t = glueFrom true (rend (displaySort t.parts)) := by
    show display t.parts = _
    unfold display
    exact renderList_glue _ (tame_rend_nonempty hds)
  obtain ⟨qs, h1, h2, hrun⟩ := parseGlueAux (sizeOf (displaySort t.parts))
    (displaySort t.parts) le_rfl hds true false [] [] (.inr ⟨rfl, rfl, rfl⟩)
  rw [List.append_nil] at hrun
  have hqne : ∀ w ∈ qs.filterMap renderOpt, w ≠ [] := by
    intro w hw
    exact tame_rend_nonempty hds w (by rw [← h1]; exact hw)
  refine ⟨qs, ?_, ?_⟩
  · show parseRun (Term.display t) false false = _
    rw [hglue]
    exact hrun
  · show display qs = _
    unfold display
    rw [displaySort_of_noGender h2, renderList_glue qs hqne,
      show List.filterMap renderOpt qs = rend qs from rfl, h1, ← hglue]

theorem c3_roundtrip_amended_witness :
    tameL [Part.gender .feminine, Part.keyword "Hand".data, Part.variantSeparator,
      Part.placeholder (Ph.reflexive none), Part.extra [Part.keyword "fig".data],
      Part.ann .explanation "alt".data] = true ∧
    ∃ qs,
      parse (Term.display ⟨[Part.gender .feminine, Part.keyword "Hand".data,
        Part.variantSeparator, Part.placeholder (Ph.reflexive none),
        Part.extra [Part.keyword "fig".data],
        Part.ann .explanation "alt".data]⟩) = .ok qs [] ∧
      display qs = Term.display ⟨[Part.gender .feminine, Part.keyword "Hand".data,
        Part.variantSeparator, Part.placeholder (Ph.reflexive none),
        Part.extra [Part.keyword "fig".data],
        Part.ann .explanation "alt".data]⟩ := by
  have ht : tameL [Part.gender .feminine, Part.keyword "Hand".data,
      Part.variantSeparator, Part.placeholder (Ph.reflexive none),
      Part.extra [Part.keyword "fig".data],
      Part.ann .explanation "alt".data] = true := by
    simp [tameL, tameP]
    decide
  exact ⟨ht, c3_roundtrip_amended ⟨_⟩ ht⟩

end DictCC
